import Mathlib

/-!
# Verification of the binary-packet codec

Shallow embedding of the schema-driven binary codec (`src/index.ts`, latest
revision, together with `src/buffers.ts`).  Buffers are modelled as lists of
bytes (`List Nat`, each element a value in `0..255`); the `DataView` backend is
taken as the canonical byte store: a typed access outside the view throws, which
is modelled by the error value `Err.rangeErr`, distinct from the codec's own
`outOfBounds` and `typeMismatch` errors.  Machine numbers are modelled as `Int`
with explicit wrap-around (`% 2^w`); the two floating-point field kinds move
IEEE-754 bit patterns through the buffer verbatim, so their values are modelled
by those bit patterns (a `Nat` below `2^32` resp. `2^64`).
-/

namespace BinaryPacket

/-- Decode/encode failure modes.  `outOfBounds` and `typeMismatch` are the two
errors raised explicitly by `BinaryPacket.read`; `rangeErr` models the
`RangeError` a `DataView`/`Buffer` typed accessor throws when the accessed
range does not fit the underlying buffer. -/
inductive Err where
  | outOfBounds
  | typeMismatch
  | rangeErr
deriving DecidableEq, Repr

/-- The eight primitive field kinds of the `Field` const enum. -/
inductive Field where
  | u8 | u16 | u32 | i8 | i16 | i32 | f32 | f64
deriving DecidableEq, Repr

/-- `BYTE_SIZE` table: byte width of each primitive field kind. -/
def byteSize : Field → Nat
  | .u8 => 1 | .i8 => 1
  | .u16 => 2 | .i16 => 2
  | .u32 => 4 | .i32 => 4 | .f32 => 4
  | .f64 => 8

/-- Big-endian byte list (most significant first) of width `w` for `u`.
Every produced byte is reduced `% 256`. -/
def toBE : Nat → Nat → List Nat
  | 0, _ => []
  | w + 1, u => (u / 256 ^ w % 256) :: toBE w u

/-- Value of a big-endian byte list. -/
def fromBE : List Nat → Nat
  | [] => 0
  | b :: rest => b * 256 ^ rest.length + fromBE rest


/-- `SET_FUNCTION` table (DataView backend): the bytes a `setUint8 / setInt8 /
setUint16 / ... / setFloat64` call stores.  The DataView setters are called
without a little-endian flag, so they store big-endian; integer setters wrap
their argument modulo `2^width`; the float setters move the value's IEEE-754
pattern, modelled here as the pattern itself. -/
def viewSet : Field → Int → List Nat
  | .u8, v => toBE 1 (v % 256).toNat
  | .i8, v => toBE 1 (v % 256).toNat
  | .u16, v => toBE 2 (v % 65536).toNat
  | .i16, v => toBE 2 (v % 65536).toNat
  | .u32, v => toBE 4 (v % 4294967296).toNat
  | .i32, v => toBE 4 (v % 4294967296).toNat
  | .f32, v => toBE 4 (v % 4294967296).toNat
  | .f64, v => toBE 8 (v % 18446744073709551616).toNat

/-- `GET_FUNCTION` table (DataView backend): value of a big-endian byte group,
interpreted unsigned, two's-complement signed, or as a float bit pattern. -/
def viewGet : Field → List Nat → Int
  | .u8, bs => (fromBE bs : Int)
  | .u16, bs => (fromBE bs : Int)
  | .u32, bs => (fromBE bs : Int)
  | .f32, bs => (fromBE bs : Int)
  | .f64, bs => (fromBE bs : Int)
  | .i8, bs => if fromBE bs < 128 then (fromBE bs : Int) else (fromBE bs : Int) - 256
  | .i16, bs => if fromBE bs < 32768 then (fromBE bs : Int) else (fromBE bs : Int) - 65536
  | .i32, bs =>
      if fromBE bs < 2147483648 then (fromBE bs : Int) else (fromBE bs : Int) - 4294967296

/-- Value range each primitive field kind is declared for (the caller contract
stated in the `Field` enum documentation); float fields carry bit patterns. -/
def primRangeOk : Field → Int → Bool
  | .u8, v => decide (0 ≤ v) && decide (v < 256)
  | .u16, v => decide (0 ≤ v) && decide (v < 65536)
  | .u32, v => decide (0 ≤ v) && decide (v < 4294967296)
  | .i8, v => decide (-128 ≤ v) && decide (v < 128)
  | .i16, v => decide (-32768 ≤ v) && decide (v < 32768)
  | .i32, v => decide (-2147483648 ≤ v) && decide (v < 2147483648)
  | .f32, v => decide (0 ≤ v) && decide (v < 4294967296)
  | .f64, v => decide (0 ≤ v) && decide (v < 18446744073709551616)

/-- `SET_FUNCTION_BUF` table (node `Buffer` backend, latest revision): the
`writeUint16BE / writeInt32BE / writeDoubleBE / ...` calls.  The node writers
validate the value range (throwing a `RangeError` instead of wrapping) and
store the two's-complement bytes big-endian. -/
def bufWriteBytes (f : Field) (v : Int) : Except Err (List Nat) :=
  if primRangeOk f v then
    .ok (toBE (byteSize f) (Int.toNat (if v < 0 then v + 2 ^ (8 * byteSize f) else v)))
  else
    .error .rangeErr

/-- `GET_FUNCTION_BUF` table (node `Buffer` backend, latest revision): the
`readUint16BE / readInt32BE / ...` calls, big-endian two's complement. -/
def bufGet : Field → List Nat → Int
  | .u8, bs => (fromBE bs : Int)
  | .u16, bs => (fromBE bs : Int)
  | .u32, bs => (fromBE bs : Int)
  | .f32, bs => (fromBE bs : Int)
  | .f64, bs => (fromBE bs : Int)
  | .i8, bs => (fromBE bs : Int) - (if 128 ≤ fromBE bs then 256 else 0)
  | .i16, bs => (fromBE bs : Int) - (if 32768 ≤ fromBE bs then 65536 else 0)
  | .i32, bs => (fromBE bs : Int) - (if 2147483648 ≤ fromBE bs then 4294967296 else 0)


/-- WHATWG UTF-8 decoding with replacement, as performed by `TextDecoder` and
by node's `toString('utf8')` (used by `decodeStringFromDataView` and
`decodeStringFromNodeBuffer`).  Input is the raw byte list, output the UTF-16
code-unit list of the resulting string; malformed input produces `0xFFFD`
(the replacement character), and code points above `0xFFFF` produce a
surrogate pair. -/
def utf8Cont (b : Nat) : Prop := 0x80 ≤ b ∧ b < 0xC0

instance (b : Nat) : Decidable (utf8Cont b) := by unfold utf8Cont; infer_instance

/-- One decoding step: given the lead byte and the remaining bytes, produce the
emitted UTF-16 code units and the number of extra (continuation) bytes
consumed beyond the lead byte. -/
def utf8Step (b : Nat) (rest : List Nat) : List Nat × Nat :=
  if b < 0x80 then ([b], 0)
  else if b < 0xC2 then ([0xFFFD], 0)
  else if b < 0xE0 then
    match rest with
    | b2 :: _ =>
      if utf8Cont b2 then ([(b - 0xC0) * 0x40 + (b2 - 0x80)], 1) else ([0xFFFD], 0)
    | [] => ([0xFFFD], 0)
  else if b < 0xF0 then
    match rest with
    | b2 :: rest2 =>
      if (if b = 0xE0 then 0xA0 ≤ b2 ∧ b2 < 0xC0
          else if b = 0xED then 0x80 ≤ b2 ∧ b2 < 0xA0
          else utf8Cont b2) then
        match rest2 with
        | b3 :: _ =>
          if utf8Cont b3 then
            ([(b - 0xE0) * 0x1000 + (b2 - 0x80) * 0x40 + (b3 - 0x80)], 2)
          else ([0xFFFD], 1)
        | [] => ([0xFFFD], 1)
      else ([0xFFFD], 0)
    | [] => ([0xFFFD], 0)
  else if b < 0xF5 then
    match rest with
    | b2 :: rest2 =>
      if (if b = 0xF0 then 0x90 ≤ b2 ∧ b2 < 0xC0
          else if b = 0xF4 then 0x80 ≤ b2 ∧ b2 < 0x90
          else utf8Cont b2) then
        match rest2 with
        | b3 :: rest3 =>
          if utf8Cont b3 then
            match rest3 with
            | b4 :: _ =>
              if utf8Cont b4 then
                let cp := (b - 0xF0) * 0x40000 + (b2 - 0x80) * 0x1000 +
                  (b3 - 0x80) * 0x40 + (b4 - 0x80)
                ([0xD800 + (cp - 0x10000) / 0x400, 0xDC00 + (cp - 0x10000) % 0x400], 3)
              else ([0xFFFD], 2)
            | [] => ([0xFFFD], 2)
          else ([0xFFFD], 1)
        | [] => ([0xFFFD], 1)
      else ([0xFFFD], 0)
    | [] => ([0xFFFD], 0)
  else ([0xFFFD], 0)

def utf8Decode : List Nat → List Nat
  | [] => []
  | b :: rest =>
    let s := utf8Step b rest
    s.1 ++ utf8Decode (rest.drop s.2)
termination_by cs => cs.length
decreasing_by
  simp only [List.length_cons, List.length_drop]
  omega


mutual
/-- One field specification of a `Definition`, as classified by the runtime
type tests of `read`/`write`/`inspectEntries`: a bare `Field` number, an array
(`[item]` dynamic, `[item, length]` fixed), a `{flags}` object, the string
marker `''`, an `{optional}` object, or a nested `BinaryPacket`. -/
inductive FieldDef where
  | prim (f : Field)
  | arr (item : ItemType) (fixedLen : Option Nat)
  | bitflags (names : List String)
  | strF
  | optionalF (sub : Packet)
  | packetF (sub : Packet)

/-- Element type of an array field: a `Field` number, the string marker `''`,
or a nested `BinaryPacket`. -/
inductive ItemType where
  | primI (f : Field)
  | strI
  | packetI (sub : Packet)

/-- A compiled `BinaryPacket`: its packet id and its (already sorted) entry
list. -/
inductive Packet where
  | mk (packetId : Nat) (entries : List (String × FieldDef))
end

/-- The packet id of a descriptor. -/
def Packet.packetId : Packet → Nat
  | .mk pid _ => pid

/-- The compiled entry list of a descriptor. -/
def Packet.entries : Packet → List (String × FieldDef)
  | .mk _ entries => entries

/-- In-memory representation of a packet value (the `ToJson` shape): numbers
(floats as bit patterns), strings as UTF-16 code-unit lists, flag records as
positional boolean lists in declared flag order, arrays, optional sub-packets
(`vOpt none` models `undefined`/an absent key), and objects as association
lists in compiled entry order. -/
inductive Value where
  | vNum (n : Int)
  | vStr (cs : List Nat)
  | vFlags (bs : List Bool)
  | vArr (elems : List Value)
  | vOpt (sub : Option Value)
  | vObj (fields : List (String × Value))

def asInt : Value → Int
  | .vNum n => n
  | _ => 0

def asStr : Value → List Nat
  | .vStr cs => cs
  | _ => []

def asArr : Value → List Value
  | .vArr vs => vs
  | _ => []

def asFlags : Value → List Bool
  | .vFlags bs => bs
  | _ => []

def asObj : Value → List (String × Value)
  | .vObj fs => fs
  | _ => []

/-- JS property access `dataOut[name]` on an object modelled as an association
list; a missing key yields `undefined`, modelled as `Value.vOpt none`. -/
def getField : List (String × Value) → String → Value
  | [], _ => .vOpt none
  | (k, v) :: rest, name => if k = name then v else getField rest name

mutual
/-- `minimumByteLength` statistic computed by `inspectEntries`: 1 tag byte plus
each entry's fixed or minimum contribution. -/
def Packet.minimumByteLength : Packet → Nat
  | .mk _ entries => 1 + minLenEntries entries

def minLenEntries : List (String × FieldDef) → Nat
  | [] => 0
  | (_, d) :: rest => minLenDef d + minLenEntries rest

def minLenDef : FieldDef → Nat
  | .prim f => byteSize f
  | .arr item (some len) => len * itemMinSize item
  | .arr _ none => 1
  | .bitflags _ => 1
  | .strF => 2
  | .optionalF _ => 1
  | .packetF sub => sub.minimumByteLength

def itemMinSize : ItemType → Nat
  | .primI f => byteSize f
  | .strI => 2
  | .packetI sub => sub.minimumByteLength
end

mutual
/-- `precalculateBufferLengthWithStrings`: the byte length the encoder
allocates before writing — the minimum length plus the string extras recorded
by `inspectEntries` in `stringPositions` (direct string fields, array-of-string
fields, and direct sub-packet fields, the latter via a full recursive
precalculation). -/
def precalculateBufferLengthWithStrings (p : Packet) (v : Value) : Nat :=
  match p with
  | .mk pid entries =>
    Packet.minimumByteLength (.mk pid entries) + precalcExtra entries (asObj v)

def precalcExtra : List (String × FieldDef) → List (String × Value) → Nat
  | [], _ => 0
  | (name, d) :: rest, fields => precalcDef d (getField fields name) + precalcExtra rest fields

def precalcDef : FieldDef → Value → Nat
  | .strF, v => (asStr v).length
  | .arr .strI _, v => strArrExtra (asArr v)
  | .packetF sub, v => precalculateBufferLengthWithStrings sub v
  | _, _ => 0

def strArrExtra : List Value → Nat
  | [] => 0
  | s :: rest => (2 + (asStr s).length) + strArrExtra rest
end

mutual
/-- Well-formed schema: every packet id fits a byte, field names are unique at
every level, and every flag set holds at most 8 flags. -/
def wfPacket : Packet → Bool
  | .mk pid entries =>
    decide (pid < 256) && decide ((entries.map Prod.fst).Nodup) && wfEntries entries

def wfEntries : List (String × FieldDef) → Bool
  | [] => true
  | (_, d) :: rest => wfDef d && wfEntries rest

def wfDef : FieldDef → Bool
  | .prim _ => true
  | .arr item _ => wfItem item
  | .bitflags names => decide (names.length ≤ 8)
  | .strF => true
  | .optionalF sub => wfPacket sub
  | .packetF sub => wfPacket sub

def wfItem : ItemType → Bool
  | .primI _ => true
  | .strI => true
  | .packetI sub => wfPacket sub
end

mutual
/-- A value conforms to a descriptor when it has exactly the object shape the
descriptor prescribes, with fields in compiled entry order: primitives in
their declared range, dynamic arrays of at most 255 elements, fixed arrays of
exactly the declared length, flag lists of the declared flag count, and
strings of at most 65535 single-octet-UTF-8 (ASCII) characters — the contract
documented on `FieldString`. -/
def conformsPacket : Packet → Value → Bool
  | .mk _ entries, .vObj fields => conformsEntries entries fields
  | _, _ => false

def conformsEntries : List (String × FieldDef) → List (String × Value) → Bool
  | [], [] => true
  | (name, d) :: rest, (n, v) :: fs =>
    decide (n = name) && conformsDef d v && conformsEntries rest fs
  | _, _ => false

def conformsDef : FieldDef → Value → Bool
  | .prim f, .vNum n => primRangeOk f n
  | .arr item none, .vArr vs => decide (vs.length ≤ 255) && conformsElems item vs
  | .arr item (some len), .vArr vs => decide (vs.length = len) && conformsElems item vs
  | .bitflags names, .vFlags bs => decide (bs.length = names.length)
  | .strF, .vStr cs => decide (cs.length ≤ 65535) && cs.all (fun c => decide (c < 128))
  | .optionalF _, .vOpt none => true
  | .optionalF sub, .vOpt (some w) => conformsPacket sub w
  | .packetF sub, w => conformsPacket sub w
  | _, _ => false

def conformsElems : ItemType → List Value → Bool
  | _, [] => true
  | item, v :: vs => conformsItem item v && conformsElems item vs

def conformsItem : ItemType → Value → Bool
  | .primI f, .vNum n => primRangeOk f n
  | .primI _, _ => false
  | .strI, .vStr cs => decide (cs.length ≤ 65535) && cs.all (fun c => decide (c < 128))
  | .strI, _ => false
  | .packetI sub, w => conformsPacket sub w
end

/-- A byte buffer: list of byte values, whose length is the allocation size. -/
abbrev Buffer := List Nat

/-- A typed store of `bytes` at `off`: succeeds only when the whole range fits
the buffer (a `DataView` setter throws otherwise, writing nothing). -/
def writeBytesAt (buf : Buffer) (off : Nat) (bytes : List Nat) : Except Err Buffer :=
  if off + bytes.length ≤ buf.length then
    .ok (buf.take off ++ bytes ++ buf.drop (off + bytes.length))
  else .error .rangeErr

/-- A typed load of `n` bytes at `off`, bounds-checked the same way. -/
def readBytesAt (buf : Buffer) (off n : Nat) : Except Err (List Nat) :=
  if off + n ≤ buf.length then .ok ((buf.drop off).take n) else .error .rangeErr

/-- `writeFunctions[f](buffer, value, offset)` against the DataView table. -/
def setPrim (f : Field) (buf : Buffer) (v : Int) (off : Nat) : Except Err Buffer :=
  writeBytesAt buf off (viewSet f v)

/-- `readFunctions[f](dataIn, offset)` against the DataView table. -/
def getPrim (f : Field) (buf : Buffer) (off : Nat) : Except Err Int :=
  (readBytesAt buf off (byteSize f)).map (viewGet f)

/-- `growDataView`: a fresh zero-filled allocation of the new size receiving
the first `min(old, new)` bytes of the old buffer. -/
def growDataView (buf : Buffer) (n : Nat) : Buffer :=
  if n ≤ buf.length then buf.take n else buf ++ List.replicate (n - buf.length) 0

/-- `encodeStringIntoDataView`: store `charCodeAt(i) & 0xff` for each
character; constructing the target `Uint8Array` throws when the range does not
fit the buffer. -/
def encodeStringIntoDataView (buf : Buffer) (off : Nat) (cs : List Nat) : Except Err Buffer :=
  writeBytesAt buf off (cs.map (· % 256))

/-- `decodeStringFromDataView`: take `strlen` raw bytes (the `DataView`
constructor throws when they do not fit) and UTF-8-decode them. -/
def decodeStringFromDataView (buf : Buffer) (off strlen : Nat) : Except Err (List Nat) :=
  (readBytesAt buf off strlen).map utf8Decode

/-- The flags byte assembled by `write` for a bit-flags entry: bit `i` is set
iff flag `i` (in declared order) is truthy. -/
def flagsByte (names : List String) (bs : List Bool) : Nat :=
  (List.range names.length).foldl (fun acc i => if bs.getD i false then acc ||| (1 <<< i) else acc) 0

mutual
/-- `BinaryPacket.read` (latest revision), DataView backend: bounds check on
`byteLength + offset` against the minimum length, tag-byte validation, then
each compiled entry in order, advancing the shared offset. -/
def read (p : Packet) (dataIn : Buffer) (off byteLength : Nat) : Except Err (Value × Nat) :=
  match p with
  | .mk pid entries =>
    if byteLength + off < Packet.minimumByteLength (.mk pid entries) then
      .error .outOfBounds
    else
      match getPrim .u8 dataIn off with
      | .error e => .error e
      | .ok tag =>
        if tag ≠ (pid : Int) then .error .typeMismatch
        else
          match readEntries entries dataIn (off + 1) byteLength with
          | .error e => .error e
          | .ok (fields, off') => .ok (.vObj fields, off')
termination_by (sizeOf p, 0)
decreasing_by all_goals (simp_wf; omega)

def readEntries (entries : List (String × FieldDef)) (dataIn : Buffer) (off byteLength : Nat) :
    Except Err (List (String × Value) × Nat) :=
  match entries with
  | [] => .ok ([], off)
  | (name, d) :: rest =>
    match readDef d dataIn off byteLength with
    | .error e => .error e
    | .ok (v, off₁) =>
      match readEntries rest dataIn off₁ byteLength with
      | .error e => .error e
      | .ok (fs, off') => .ok ((name, v) :: fs, off')
termination_by (sizeOf entries, 0)
decreasing_by all_goals (simp_wf; omega)

def readDef (d : FieldDef) (dataIn : Buffer) (off byteLength : Nat) :
    Except Err (Value × Nat) :=
  match d with
  | .prim f =>
    match getPrim f dataIn off with
    | .error e => .error e
    | .ok v => .ok (.vNum v, off + byteSize f)
  | .arr item (some len) =>
    match readElems item len dataIn off byteLength with
    | .error e => .error e
    | .ok (vs, off') => .ok (.vArr vs, off')
  | .arr item none =>
    match getPrim .u8 dataIn off with
    | .error e => .error e
    | .ok c =>
      match readElems item c.toNat dataIn (off + 1) byteLength with
      | .error e => .error e
      | .ok (vs, off') => .ok (.vArr vs, off')
  | .strF =>
    match getPrim .u16 dataIn off with
    | .error e => .error e
    | .ok n =>
      match decodeStringFromDataView dataIn (off + 2) n.toNat with
      | .error e => .error e
      | .ok cs => .ok (.vStr cs, off + 2 + n.toNat)
  | .bitflags names =>
    match getPrim .u8 dataIn off with
    | .error e => .error e
    | .ok fl =>
      .ok (.vFlags ((List.range names.length).map (fun i => (fl.toNat &&& (1 <<< i)) != 0)),
        off + 1)
  | .optionalF sub =>
    match getPrim .u8 dataIn off with
    | .error e => .error e
    | .ok pres =>
      if pres ≠ 0 then
        match read sub dataIn (off + 1) byteLength with
        | .error e => .error e
        | .ok (w, off') => .ok (.vOpt (some w), off')
      else .ok (.vOpt none, off + 1)
  | .packetF sub => read sub dataIn off byteLength
termination_by (sizeOf d, 0)
decreasing_by all_goals (simp_wf; omega)

def readElems (item : ItemType) (count : Nat) (dataIn : Buffer) (off byteLength : Nat) :
    Except Err (List Value × Nat) :=
  match count with
  | 0 => .ok ([], off)
  | c + 1 =>
    match item with
    | .packetI sub =>
      match read sub dataIn off byteLength with
      | .error e => .error e
      | .ok (v, off₁) =>
        match readElems (.packetI sub) c dataIn off₁ byteLength with
        | .error e => .error e
        | .ok (vs, off') => .ok (v :: vs, off')
    | .strI =>
      match getPrim .u16 dataIn off with
      | .error e => .error e
      | .ok n =>
        match decodeStringFromDataView dataIn (off + 2) n.toNat with
        | .error e => .error e
        | .ok cs =>
          match readElems .strI c dataIn (off + 2 + n.toNat) byteLength with
          | .error e => .error e
          | .ok (vs, off') => .ok (.vStr cs :: vs, off')
    | .primI f =>
      match getPrim f dataIn off with
      | .error e => .error e
      | .ok v =>
        match readElems (.primI f) c dataIn (off + byteSize f) byteLength with
        | .error e => .error e
        | .ok (vs, off') => .ok (.vNum v :: vs, off')
termination_by (sizeOf item, count)
decreasing_by all_goals (simp_wf; omega)
end

mutual
/-- `BinaryPacket.write` (latest revision), DataView backend: write the tag
byte, then each compiled entry, threading the running committed length
(`byteLength`, here `bl`) and the running allocation size (`maxByteLength`,
here `mbl`), growing the buffer exactly as the source does. -/
def write (p : Packet) (dataOut : Value) (buf : Buffer) (off bl mbl : Nat) :
    Except Err (Buffer × Nat) :=
  match p with
  | .mk pid entries =>
    match setPrim .u8 buf (pid : Int) off with
    | .error e => .error e
    | .ok buf₁ => writeEntries entries (asObj dataOut) buf₁ (off + 1) bl mbl
termination_by (sizeOf p, 0)
decreasing_by all_goals (simp_wf; omega)

def writeEntries (entries : List (String × FieldDef)) (fields : List (String × Value))
    (buf : Buffer) (off bl mbl : Nat) : Except Err (Buffer × Nat) :=
  match entries with
  | [] => .ok (buf, off)
  | (name, d) :: rest =>
    match writeDef d (getField fields name) buf off bl mbl with
    | .error e => .error e
    | .ok (buf₁, off₁, bl₁, mbl₁) => writeEntries rest fields buf₁ off₁ bl₁ mbl₁
termination_by (sizeOf entries, 0)
decreasing_by all_goals (simp_wf; omega)

/-- One entry of the `write` loop.  Returns the buffer, the advanced offset,
and the updated `byteLength`/`maxByteLength` locals exactly as the source
updates them: sub-packet and array-of-sub-packet entries reset them to the
offset and the buffer size, the other entries leave them unchanged. -/
def writeDef (d : FieldDef) (data : Value) (buf : Buffer) (off bl mbl : Nat) :
    Except Err (Buffer × Nat × Nat × Nat) :=
  match d with
  | .prim f =>
    match setPrim f buf (asInt data) off with
    | .error e => .error e
    | .ok buf₁ => .ok (buf₁, off + byteSize f, bl, mbl)
  | .strF =>
    let cs := asStr data
    match setPrim .u16 buf (cs.length : Int) off with
    | .error e => .error e
    | .ok buf₁ =>
      match encodeStringIntoDataView buf₁ (off + 2) cs with
      | .error e => .error e
      | .ok buf₂ => .ok (buf₂, off + 2 + cs.length, bl, mbl)
  | .bitflags names =>
    match setPrim .u8 buf (flagsByte names (asFlags data) : Int) off with
    | .error e => .error e
    | .ok buf₁ => .ok (buf₁, off + 1, bl, mbl)
  | .optionalF sub =>
    match data with
    | .vOpt (some w) =>
      match setPrim .u8 buf 1 off with
      | .error e => .error e
      | .ok buf₁ =>
        let bl₁ := bl + sub.minimumByteLength
        let mbl₁ := mbl + sub.minimumByteLength
        let buf₂ := if buf₁.length < mbl₁ then growDataView buf₁ mbl₁ else buf₁
        match write sub w buf₂ (off + 1) bl₁ mbl₁ with
        | .error e => .error e
        | .ok (buf₃, off') => .ok (buf₃, off', off', buf₃.length)
    | _ =>
      match setPrim .u8 buf 0 off with
      | .error e => .error e
      | .ok buf₁ => .ok (buf₁, off + 1, bl, mbl)
  | .packetF sub =>
    match write sub data buf off bl mbl with
    | .error e => .error e
    | .ok (buf', off') => .ok (buf', off', off', buf'.length)
  | .arr item none =>
    let vs := asArr data
    match setPrim .u8 buf (vs.length : Int) off with
    | .error e => .error e
    | .ok buf₁ =>
      if vs.length > 0 then
        match item with
        | .packetI sub =>
          let needed := vs.length * sub.minimumByteLength
          let buf₂ :=
            if buf₁.length < mbl + needed then growDataView buf₁ (mbl + needed) else buf₁
          writeElems (.packetI sub) vs buf₂ (off + 1) (bl + needed) (mbl + needed)
        | .strI => writeElems .strI vs buf₁ (off + 1) bl mbl
        | .primI f =>
          let needed := vs.length * byteSize f
          let buf₂ :=
            if buf₁.length < mbl + needed then growDataView buf₁ (mbl + needed) else buf₁
          writeElems (.primI f) vs buf₂ (off + 1) (bl + needed) (mbl + needed)
      else .ok (buf₁, off + 1, bl, mbl)
  | .arr item (some _) =>
    let vs := asArr data
    if vs.length > 0 then writeElems item vs buf off bl mbl
    else .ok (buf, off, bl, mbl)
termination_by (sizeOf d, 0)
decreasing_by all_goals (simp_wf; omega)

def writeElems (item : ItemType) (vs : List Value) (buf : Buffer) (off bl mbl : Nat) :
    Except Err (Buffer × Nat × Nat × Nat) :=
  match vs with
  | [] => .ok (buf, off, bl, mbl)
  | v :: rest =>
    match item with
    | .packetI sub =>
      match write sub v buf off bl mbl with
      | .error e => .error e
      | .ok (buf₁, off₁) => writeElems (.packetI sub) rest buf₁ off₁ off₁ buf₁.length
    | .strI =>
      let cs := asStr v
      match setPrim .u16 buf (cs.length : Int) off with
      | .error e => .error e
      | .ok buf₁ =>
        match encodeStringIntoDataView buf₁ (off + 2) cs with
        | .error e => .error e
        | .ok buf₂ => writeElems .strI rest buf₂ (off + 2 + cs.length) bl mbl
    | .primI f =>
      match setPrim f buf (asInt v) off with
      | .error e => .error e
      | .ok buf₁ => writeElems (.primI f) rest buf₁ (off + byteSize f) bl mbl
termination_by (sizeOf item, vs.length)
decreasing_by all_goals (simp_wf; omega)
end

/-- `writeDataView`: precalculate the allocation size (minimum length plus the
recorded string extras), allocate a zero-filled buffer of that size, and run
`write` from offset 0 with `byteLength = maxByteLength =` that size.  Returns
the final buffer together with the committed offset. -/
def writeDataView (p : Packet) (dataOut : Value) : Except Err (Buffer × Nat) :=
  let byteLength := precalculateBufferLengthWithStrings p dataOut
  write p dataOut (List.replicate byteLength 0) 0 byteLength byteLength

/-- `readDataView` with the default offset pointer `{offset: 0}` and the
default `byteLength = dataIn.byteLength`. -/
def readDataView (p : Packet) (dataIn : Buffer) : Except Err (Value × Nat) :=
  read p dataIn 0 dataIn.length

/-- `BinaryPacket.visit`: walk the visitor list in order; at each visitor,
compare the buffer's leading byte with that visitor's packet id and, on the
first match, decode the whole buffer with that descriptor and hand the value
to the handler; if no visitor matches, return without invoking any handler. -/
def visit {α : Type} (dataIn : Buffer) :
    List (Packet × (Value → α)) → Except Err (Option α)
  | [] => .ok none
  | (P, onVisit) :: rest =>
    match getPrim .u8 dataIn 0 with
    | .error e => .error e
    | .ok tag =>
      if (P.packetId : Int) = tag then
        (read P dataIn 0 dataIn.length).map (fun r => some (onVisit r.1))
      else visit dataIn rest

/-- `sortEntries`: `Object.entries(definition).sort(([a], [b]) =>
a.localeCompare(b))`.  The comparator is the host's
`String.prototype.localeCompare` — an external, locale-dependent collation
that ECMA-402 constrains to a consistent total preorder but does not pin
down, and that is required to return `0` on distinct canonically equivalent
strings — so it is a parameter `lc` here.  `Array.prototype.sort` is
specified stable (ES2019), modelled by a stable insertion sort: an element
is inserted before exactly the entries whose name it compares at-most-equal
to, so entries with tied names keep their declaration order. -/
def sortEntries (lc : String → String → Ordering)
    (definition : List (String × FieldDef)) : List (String × FieldDef) :=
  definition.insertionSort (fun a b => lc a.1 b.1 ≠ .gt)

/-- `BinaryPacket.define` followed by the constructor: the compiled descriptor
keeps the packet id and the entry list sorted under the host collation. -/
def define (lc : String → String → Ordering) (packetId : Nat)
    (definition : List (String × FieldDef)) : Packet :=
  .mk packetId (sortEntries lc definition)

/-- Strict code-unit comparison of two field names: a consistent collation
that never ties distinct names (what the spec's "lexicographic sort by field
name" describes). -/
def lexOrd (a b : String) : Ordering :=
  if a < b then .lt else if b < a then .gt else .eq

/-- A collation exhibiting the tie ECMA-402 mandates of every conforming
`localeCompare`: the distinct but canonically equivalent field names
`"\u00FC"` (the precomposed letter u-with-diaeresis) and `"u\u0308"` (u
followed by the combining diaeresis) compare equal; every other comparison
is the strict code-unit one. -/
def localeTie (a b : String) : Ordering :=
  lexOrd (if a = "u\u0308" then "\u00FC" else a)
    (if b = "u\u0308" then "\u00FC" else b)

/-- `encodeSmallString` (`buffers.ts`), as called on a node `Buffer` by
`encodeStringIntoNodeBuffer`: each character is stored with plain indexed
assignment `buffer[byteOffset + i] = string.charCodeAt(i) & 0xff`, and on a
typed array an out-of-range indexed store is a silent no-op — `List.set` has
exactly that out-of-range behaviour.  (The `DataView` string path instead
constructs a `Uint8Array` over the target range, which throws a `RangeError`
when the range does not fit, modelled by `encodeStringIntoDataView`.) -/
def encodeSmallString : Buffer → Nat → List Nat → Buffer
  | buf, _, [] => buf
  | buf, off, c :: rest => encodeSmallString (buf.set off (c % 256)) (off + 1) rest

/-- The argument validation performed by `BinaryPacket.define` on the packet
id, over JS numbers modelled as rationals: it rejects exactly negative or
non-finite ids (every rational is finite) and ids above 255 — there is no
integrality test. -/
def defineAccepts (packetId : ℚ) : Bool :=
  !(decide (packetId < 0)) && !(decide (packetId > 255))

/-- The argument validation performed by `FieldFixedArray` on the length:
it rejects exactly negative or non-finite lengths — again no integrality
test. -/
def fixedArrayLengthAccepts (len : ℚ) : Bool :=
  !(decide (len < 0))

/-- The argument validation performed by `FieldBitFlags`: at most 8 flags. -/
def fieldBitFlagsAccepts (numFlags : Nat) : Bool :=
  decide (numFlags ≤ 8)

/-- Joint induction statement, packet level: a successful `write` never
shrinks the buffer, leaves the bytes before the write position untouched,
advances the offset by at least the packet's minimum byte length, and any
buffer that contains the written byte range (shifted by `δ`) decodes back to
exactly the written value, landing exactly at the end of the encoding. -/
def WriteReadP (p : Packet) : Prop :=
  ∀ (v : Value) (buf buf' : Buffer) (off bl mbl off' : Nat),
    wfPacket p = true → conformsPacket p v = true →
    write p v buf off bl mbl = .ok (buf', off') →
    buf.length ≤ buf'.length ∧ (off ≤ off' ∧ off' ≤ buf'.length) ∧
    (∀ i, i < off → buf'[i]? = buf[i]?) ∧
    off + Packet.minimumByteLength p ≤ off' ∧
    (∀ (g : Buffer) (δ : Nat), off' + δ ≤ g.length →
      (∀ i, off ≤ i → i < off' → g[i + δ]? = buf'[i]?) →
      read p g (off + δ) g.length = .ok (v, off' + δ))

/-- Joint induction statement, entry-list level. -/
def WriteReadE (entries : List (String × FieldDef)) : Prop :=
  ∀ (fields fs : List (String × Value)) (buf buf' : Buffer) (off bl mbl off' : Nat),
    wfEntries entries = true → conformsEntries entries fs = true →
    (∀ nv ∈ fs, getField fields nv.1 = nv.2) → off ≤ buf.length →
    writeEntries entries fields buf off bl mbl = .ok (buf', off') →
    buf.length ≤ buf'.length ∧ (off ≤ off' ∧ off' ≤ buf'.length) ∧
    (∀ i, i < off → buf'[i]? = buf[i]?) ∧
    off + minLenEntries entries ≤ off' ∧
    (∀ (g : Buffer) (δ : Nat), off' + δ ≤ g.length →
      (∀ i, off ≤ i → i < off' → g[i + δ]? = buf'[i]?) →
      readEntries entries g (off + δ) g.length = .ok (fs, off' + δ))

/-- Joint induction statement, single-entry level. -/
def WriteReadD (d : FieldDef) : Prop :=
  ∀ (data : Value) (buf buf' : Buffer) (off bl mbl off' bl' mbl' : Nat),
    wfDef d = true → conformsDef d data = true → off ≤ buf.length →
    writeDef d data buf off bl mbl = .ok (buf', off', bl', mbl') →
    buf.length ≤ buf'.length ∧ (off ≤ off' ∧ off' ≤ buf'.length) ∧
    (∀ i, i < off → buf'[i]? = buf[i]?) ∧
    off + minLenDef d ≤ off' ∧
    (∀ (g : Buffer) (δ : Nat), off' + δ ≤ g.length →
      (∀ i, off ≤ i → i < off' → g[i + δ]? = buf'[i]?) →
      readDef d g (off + δ) g.length = .ok (data, off' + δ))

/-- Joint induction statement, array-element level. -/
def WriteReadI (item : ItemType) : Prop :=
  ∀ (vs : List Value) (buf buf' : Buffer) (off bl mbl off' bl' mbl' : Nat),
    wfItem item = true → conformsElems item vs = true → off ≤ buf.length →
    writeElems item vs buf off bl mbl = .ok (buf', off', bl', mbl') →
    buf.length ≤ buf'.length ∧ (off ≤ off' ∧ off' ≤ buf'.length) ∧
    (∀ i, i < off → buf'[i]? = buf[i]?) ∧
    off + vs.length * itemMinSize item ≤ off' ∧
    (∀ (g : Buffer) (δ : Nat), off' + δ ≤ g.length →
      (∀ i, off ≤ i → i < off' → g[i + δ]? = buf'[i]?) →
      readElems item vs.length g (off + δ) g.length = .ok (vs, off' + δ))


section PrimitiveLemmas

theorem toBE_length (w u : Nat) : (toBE w u).length = w := by
  induction w generalizing u with
  | zero => rfl
  | succ w ih => simp [toBE, ih]

theorem fromBE_toBE (w u : Nat) : fromBE (toBE w u) = u % 256 ^ w := by
  induction w generalizing u with
  | zero => simp [toBE, fromBE, Nat.mod_one]
  | succ w ih =>
    have h256 : (0:Nat) < 256 ^ w := Nat.pos_pow_of_pos w (by norm_num)
    simp only [toBE, fromBE, ih, toBE_length]
    have hsplit : u % 256 ^ (w + 1) = u % 256 ^ w + 256 ^ w * (u / 256 ^ w % 256) := by
      rw [pow_succ]; exact Nat.mod_mul
    rw [hsplit]; ring

theorem viewGet_viewSet (f : Field) (v : Int) (h : primRangeOk f v = true) :
    viewGet f (viewSet f v) = v := by
  cases f <;>
    simp only [primRangeOk, Bool.and_eq_true, decide_eq_true_eq] at h <;>
    simp only [viewSet, viewGet, fromBE_toBE] <;>
    (try split_ifs) <;> omega

theorem viewSet_length (f : Field) (v : Int) : (viewSet f v).length = byteSize f := by
  cases f <;> simp [viewSet, toBE_length, byteSize]

/-- Decoding a byte list that stays below `0x80` (pure ASCII) is the identity. -/
theorem utf8Decode_ascii : ∀ cs : List Nat, (∀ c ∈ cs, c < 128) → utf8Decode cs = cs := by
  intro cs h
  induction cs with
  | nil => simp [utf8Decode]
  | cons b rest ih =>
    have hb : b < 128 := h b (by simp)
    rw [utf8Decode]
    simp only [utf8Step, if_pos hb, List.drop_zero, List.singleton_append]
    exact congrArg (b :: ·) (ih fun c hc => h c (by simp [hc]))

end PrimitiveLemmas

section BufferLemmas

theorem writeBytesAt_ok {buf buf' : Buffer} {off : Nat} {bytes : List Nat}
    (h : writeBytesAt buf off bytes = .ok buf') :
    buf'.length = buf.length ∧ off + bytes.length ≤ buf.length ∧
      (∀ i, i < off ∨ off + bytes.length ≤ i → buf'[i]? = buf[i]?) ∧
      (∀ j, j < bytes.length → buf'[off + j]? = bytes[j]?) := by
  unfold writeBytesAt at h
  split at h
  case isFalse => simp at h
  case isTrue hle =>
    injection h with h
    subst h
    have htake : (buf.take off).length = off := by
      rw [List.length_take]; omega
    refine ⟨?_, hle, ?_, ?_⟩
    · rw [List.append_assoc, List.length_append, htake, List.length_append,
        List.length_drop]
      omega
    · intro i hi
      rw [List.append_assoc, List.getElem?_append, htake]
      rcases hi with hlt | hge
      · rw [if_pos hlt, List.getElem?_take, if_pos hlt]
      · rw [if_neg (by omega),
          List.getElem?_append_right (show bytes.length ≤ i - off by omega),
          List.getElem?_drop]
        congr 1
        omega
    · intro j hj
      rw [List.append_assoc, List.getElem?_append, htake, if_neg (by omega)]
      have hsub : off + j - off = j := by omega
      rw [hsub, List.getElem?_append_left hj]

theorem writeBytesAt_fits {buf : Buffer} {off : Nat} {bytes : List Nat}
    (h : off + bytes.length ≤ buf.length) :
    ∃ buf', writeBytesAt buf off bytes = .ok buf' :=
  ⟨buf.take off ++ bytes ++ buf.drop (off + bytes.length), by
    unfold writeBytesAt
    rw [if_pos h]⟩

theorem readBytesAt_of_agree {g : Buffer} {off n : Nat} {bytes : List Nat}
    (hlen : bytes.length = n) (hle : off + n ≤ g.length)
    (hag : ∀ j, j < n → g[off + j]? = bytes[j]?) :
    readBytesAt g off n = .ok bytes := by
  unfold readBytesAt
  rw [if_pos hle]
  congr 1
  apply List.ext_getElem?
  intro j
  rw [List.getElem?_take, List.getElem?_drop]
  by_cases hj : j < n
  · rw [if_pos hj, hag j hj]
  · rw [if_neg hj, List.getElem?_eq_none (show bytes.length ≤ j by omega)]

theorem growDataView_length {buf : Buffer} {n : Nat} (h : buf.length ≤ n) :
    (growDataView buf n).length = n := by
  unfold growDataView
  split
  · rw [List.length_take]; omega
  · simp; omega

theorem growDataView_agree {buf : Buffer} {n : Nat} (h : buf.length ≤ n) :
    ∀ i, i < buf.length → (growDataView buf n)[i]? = buf[i]? := by
  intro i hi
  unfold growDataView
  split
  · rw [List.getElem?_take, if_pos (by omega)]
  · rw [List.getElem?_append_left hi]

theorem setPrim_ok {f : Field} {buf buf' : Buffer} {v : Int} {off : Nat}
    (h : setPrim f buf v off = .ok buf') :
    buf'.length = buf.length ∧ off + byteSize f ≤ buf.length ∧
      (∀ i, i < off ∨ off + byteSize f ≤ i → buf'[i]? = buf[i]?) ∧
      (∀ j, j < byteSize f → buf'[off + j]? = (viewSet f v)[j]?) := by
  have := writeBytesAt_ok h
  rwa [viewSet_length] at this

theorem setPrim_fits {f : Field} {buf : Buffer} {v : Int} {off : Nat}
    (h : off + byteSize f ≤ buf.length) :
    ∃ buf', setPrim f buf v off = .ok buf' :=
  writeBytesAt_fits (by rwa [viewSet_length])

theorem getPrim_of_agree {f : Field} {g : Buffer} {off : Nat} {v : Int}
    (hr : primRangeOk f v = true) (hle : off + byteSize f ≤ g.length)
    (hag : ∀ j, j < byteSize f → g[off + j]? = (viewSet f v)[j]?) :
    getPrim f g off = .ok v := by
  unfold getPrim
  rw [readBytesAt_of_agree (viewSet_length f v) hle hag]
  simp [Except.map, viewGet_viewSet f v hr]

end BufferLemmas

section RoundTripLemmas

theorem getField_of_nodup : ∀ (fs : List (String × Value)) (nv : String × Value),
    (fs.map Prod.fst).Nodup → nv ∈ fs → getField fs nv.1 = nv.2 := by
  intro fs
  induction fs with
  | nil => intro nv _ h; simp at h
  | cons kv rest ih =>
    intro nv hnd hmem
    simp only [List.map_cons, List.nodup_cons] at hnd
    rcases List.mem_cons.mp hmem with rfl | hmem'
    · rw [getField, if_pos rfl]
    · rw [getField]
      have hne : kv.1 ≠ nv.1 := by
        intro heq
        exact hnd.1 (heq ▸ List.mem_map_of_mem Prod.fst hmem')
      rw [if_neg hne]
      exact ih nv hnd.2 hmem'

theorem conformsEntries_names : ∀ (entries : List (String × FieldDef))
    (fs : List (String × Value)), conformsEntries entries fs = true →
    fs.map Prod.fst = entries.map Prod.fst := by
  intro entries
  induction entries with
  | nil =>
    intro fs h
    cases fs with
    | nil => rfl
    | cons a b => simp [conformsEntries] at h
  | cons e rest ih =>
    intro fs h
    cases fs with
    | nil => obtain ⟨n, d⟩ := e; simp [conformsEntries] at h
    | cons nv fs' =>
      obtain ⟨n, d⟩ := e
      obtain ⟨n', v⟩ := nv
      simp only [conformsEntries, Bool.and_eq_true, decide_eq_true_eq] at h
      simp [h.1.1, ih fs' h.2]

theorem foldl_flags_testBit (bs : List Bool) :
    ∀ (n : Nat) (acc : Nat) (j : Nat),
      ((List.range n).foldl
          (fun acc i => if bs.getD i false then acc ||| (1 <<< i) else acc) acc).testBit j =
        (acc.testBit j || (decide (j < n) && bs.getD j false)) := by
  intro n
  induction n with
  | zero => intro acc j; simp
  | succ n ih =>
    intro acc j
    rw [List.range_succ, List.foldl_append]
    simp only [List.foldl_cons, List.foldl_nil]
    by_cases hgd : bs.getD n false = true
    · rw [if_pos hgd, Nat.testBit_or, ih, Nat.one_shiftLeft, Nat.testBit_two_pow]
      rcases Nat.lt_trichotomy j n with hj | rfl | hj
      · simp [hj, Nat.lt_succ_of_lt hj, Nat.ne_of_gt hj]
      · simp only [List.getD_eq_getElem?_getD] at hgd
        simp [hgd, Nat.lt_irrefl]
      · have h1 : ¬(j < n) := by omega
        have h2 : ¬(j < n + 1) := by omega
        simp [h1, h2, Nat.ne_of_lt hj]
    · rw [if_neg hgd, ih]
      rcases Nat.lt_trichotomy j n with hj | rfl | hj
      · simp [hj, Nat.lt_succ_of_lt hj]
      · simp only [List.getD_eq_getElem?_getD] at hgd
        simp [hgd, Nat.lt_irrefl]
      · have h1 : ¬(j < n) := by omega
        have h2 : ¬(j < n + 1) := by omega
        simp [h1, h2]

theorem foldl_flags_lt (bs : List Bool) :
    ∀ (n : Nat),
      (List.range n).foldl
          (fun acc i => if bs.getD i false then acc ||| (1 <<< i) else acc) 0 < 2 ^ n := by
  intro n
  induction n with
  | zero => simp
  | succ n ih =>
    rw [List.range_succ, List.foldl_append]
    simp only [List.foldl_cons, List.foldl_nil]
    have hmono : (2 : Nat) ^ n < 2 ^ (n + 1) := by
      have := Nat.pos_pow_of_pos n (show 0 < 2 by norm_num)
      rw [pow_succ]; omega
    split
    · exact Nat.or_lt_two_pow (by omega) (by rw [Nat.one_shiftLeft]; omega)
    · omega

theorem flagsByte_lt (names : List String) (bs : List Bool) (h : names.length ≤ 8) :
    flagsByte names bs < 256 := by
  have := foldl_flags_lt bs names.length
  have hle : (2 : Nat) ^ names.length ≤ 2 ^ 8 :=
    Nat.pow_le_pow_right (by norm_num) h
  unfold flagsByte
  omega

theorem flagsByte_testBit (names : List String) (bs : List Bool) (j : Nat) :
    (flagsByte names bs).testBit j = (decide (j < names.length) && bs.getD j false) := by
  unfold flagsByte
  rw [foldl_flags_testBit]
  simp

theorem flags_roundtrip (names : List String) (bs : List Bool)
    (hlen : bs.length = names.length) :
    (List.range names.length).map
        (fun i => ((flagsByte names bs) &&& (1 <<< i)) != 0) = bs := by
  apply List.ext_getElem?
  intro i
  rw [List.getElem?_map]
  by_cases hi : i < names.length
  · rw [List.getElem?_range hi, Option.map_some', List.getElem?_eq_getElem (by omega)]
    congr 1
    rw [Nat.one_shiftLeft, Nat.and_two_pow]
    have hgd : bs.getD i false = bs[i] := by
      rw [List.getD_eq_getElem?_getD, List.getElem?_eq_getElem (by omega)]
      rfl
    have htb := flagsByte_testBit names bs i
    rw [hgd] at htb
    cases hb : bs[i] <;> rw [hb] at htb <;> simp [htb, hi]
  · rw [List.getElem?_eq_none (show (List.range names.length).length ≤ i by simp; omega),
      List.getElem?_eq_none (show bs.length ≤ i by omega)]
    rfl

/-- `charCode & 0xff` is the identity on ASCII code units. -/
theorem map_mod256_of_ascii {cs : List Nat} (h : ∀ c ∈ cs, c < 128) :
    cs.map (· % 256) = cs := by
  induction cs with
  | nil => rfl
  | cons c rest ih =>
    have hc : c < 128 := h c (by simp)
    simp only [List.map_cons, Nat.mod_eq_of_lt (by omega : c < 256)]
    exact congrArg (c :: ·) (ih fun x hx => h x (by simp [hx]))

end RoundTripLemmas


section MainRoundTrip

/-- The conditional regrowth performed before nested writes never shrinks the
buffer and preserves every existing byte. -/
theorem growIf_facts (buf : Buffer) (m : Nat) :
    buf.length ≤ (if buf.length < m then growDataView buf m else buf).length ∧
    ∀ i, i < buf.length → (if buf.length < m then growDataView buf m else buf)[i]? = buf[i]? := by
  by_cases h : buf.length < m
  · rw [if_pos h]
    exact ⟨by rw [growDataView_length (by omega)]; omega, growDataView_agree (by omega)⟩
  · rw [if_neg h]
    exact ⟨le_rfl, fun i _ => rfl⟩

/-- Writing one length-prefixed ASCII string (the shared step of `strF` fields
and string-array elements): the buffer keeps its length, bytes outside the
written range survive, and any buffer agreeing with the written range reads
the length prefix and the string content back. -/
theorem strWrite_step (cs : List Nat) (buf buf₁ buf₂ : Buffer) (off : Nat)
    (hlen : cs.length ≤ 65535) (hascii : ∀ c ∈ cs, c < 128)
    (hset : setPrim .u16 buf ((cs.length : Int)) off = .ok buf₁)
    (henc : encodeStringIntoDataView buf₁ (off + 2) cs = .ok buf₂) :
    buf₂.length = buf.length ∧ off + 2 + cs.length ≤ buf.length ∧
    (∀ i, i < off ∨ off + 2 + cs.length ≤ i → buf₂[i]? = buf[i]?) ∧
    ∀ (g : Buffer) (δ : Nat), off + 2 + cs.length + δ ≤ g.length →
      (∀ i, off ≤ i → i < off + 2 + cs.length → g[i + δ]? = buf₂[i]?) →
      getPrim .u16 g (off + δ) = .ok ((cs.length : Int)) ∧
      decodeStringFromDataView g (off + δ + 2) cs.length = .ok cs := by
  obtain ⟨hs1, hs2, hs3, hs4⟩ := setPrim_ok hset
  rw [encodeStringIntoDataView] at henc
  obtain ⟨he1, he2, he3, he4⟩ := writeBytesAt_ok henc
  rw [List.length_map] at he2 he3
  rw [map_mod256_of_ascii hascii] at he4
  have hsz16 : byteSize Field.u16 = 2 := rfl
  rw [hsz16] at hs2 hs4
  have hlen2 : buf₂.length = buf.length := by rw [he1, hs1]
  have hpre : ∀ j, j < 2 → buf₂[off + j]? = (viewSet .u16 ((cs.length : Int)))[j]? := by
    intro j hj
    rw [he3 (off + j) (Or.inl (by omega)), hs4 j hj]
  refine ⟨hlen2, by omega, ?_, ?_⟩
  · intro i hi
    rcases hi with hi | hi
    · rw [he3 i (Or.inl (by omega)), hs3 i (Or.inl hi)]
    · rw [he3 i (Or.inr (by omega)), hs3 i (Or.inr (by omega))]
  · intro g δ hgl hag
    have hr : primRangeOk .u16 ((cs.length : Int)) = true := by
      simp only [primRangeOk, Bool.and_eq_true, decide_eq_true_eq]
      omega
    constructor
    · apply getPrim_of_agree hr (by rw [hsz16]; omega)
      rw [hsz16]
      intro j hj
      have hidx : off + δ + j = off + j + δ := by omega
      rw [hidx, hag (off + j) (by omega) (by omega), hpre j hj]
    · have hread : readBytesAt g (off + δ + 2) cs.length = .ok cs := by
        apply readBytesAt_of_agree rfl (by omega)
        intro j hj
        have hidx : off + δ + 2 + j = off + 2 + j + δ := by omega
        rw [hidx, hag (off + 2 + j) (by omega) (by omega), he4 j hj]
      rw [decodeStringFromDataView, hread]
      simp [Except.map, utf8Decode_ascii cs hascii]

/-- The dynamic-array step shared by the three element kinds: after storing
the element count and (possibly) regrowing the buffer, a successful element
write yields the dynamic-array conclusion of the joint induction. -/
theorem dynArrStep (item : ItemType) (vs : List Value) (buf buf₁ bufm buf' : Buffer)
    (off bl₂ mbl₂ off' bl' mbl' : Nat)
    (hI : WriteReadI item)
    (hwf : wfItem item = true) (hce : conformsElems item vs = true)
    (hcnt : vs.length ≤ 255)
    (hset : setPrim .u8 buf ((vs.length : Int)) off = .ok buf₁)
    (hg1 : buf₁.length ≤ bufm.length)
    (hg2 : ∀ i, i < buf₁.length → bufm[i]? = buf₁[i]?)
    (hw : writeElems item vs bufm (off + 1) bl₂ mbl₂ = .ok (buf', off', bl', mbl')) :
    buf.length ≤ buf'.length ∧ (off ≤ off' ∧ off' ≤ buf'.length) ∧
    (∀ i, i < off → buf'[i]? = buf[i]?) ∧
    off + 1 ≤ off' ∧
    (∀ (g : Buffer) (δ : Nat), off' + δ ≤ g.length →
      (∀ i, off ≤ i → i < off' → g[i + δ]? = buf'[i]?) →
      readDef (.arr item none) g (off + δ) g.length = .ok (.vArr vs, off' + δ)) := by
  obtain ⟨hs1, hs2, hs3, hs4⟩ := setPrim_ok hset
  have hsz8 : byteSize Field.u8 = 1 := rfl
  rw [hsz8] at hs2 hs4
  obtain ⟨rA, ⟨rB1, rB2⟩, rC, rD, rE⟩ :=
    hI vs bufm buf' (off + 1) bl₂ mbl₂ off' bl' mbl' hwf hce (by omega) hw
  refine ⟨by omega, ⟨by omega, rB2⟩, ?_, by omega, ?_⟩
  · intro i hi
    rw [rC i (by omega), hg2 i (by omega), hs3 i (Or.inl hi)]
  · intro g δ hgl hag
    have hgp : getPrim .u8 g (off + δ) = .ok ((vs.length : Int)) := by
      apply getPrim_of_agree
        (by simp only [primRangeOk, Bool.and_eq_true, decide_eq_true_eq]; omega)
        (by rw [hsz8]; omega)
      rw [hsz8]
      intro j hj
      have hj0 : j = 0 := by omega
      subst hj0
      have h1 : g[off + δ + 0]? = g[off + δ]? := by norm_num
      rw [h1, hag off le_rfl (by omega), rC off (by omega), hg2 off (by omega)]
      have := hs4 0 (by omega)
      simpa using this
    have hrE := rE g δ hgl (fun i h1 h2 => hag i (by omega) h2)
    have htn : (((vs.length : Nat) : Int)).toNat = vs.length := Int.toNat_natCast _
    have hidx : off + δ + 1 = off + 1 + δ := by omega
    simp only [readDef, hgp, htn, hidx, hrE]

/-- The joint write/read round-trip induction, by strong induction on the
size of the descriptor component. -/
theorem writeReadAux : ∀ n : Nat,
    (∀ p : Packet, sizeOf p ≤ n → WriteReadP p) ∧
    (∀ entries : List (String × FieldDef), sizeOf entries ≤ n → WriteReadE entries) ∧
    (∀ d : FieldDef, sizeOf d ≤ n → WriteReadD d) ∧
    (∀ item : ItemType, sizeOf item ≤ n → WriteReadI item) := by
  intro n
  induction n using Nat.strong_induction_on with
  | _ n ih =>
    refine ⟨?_, ?_, ?_, ?_⟩
    · -- packets
      intro p hsz
      intro v buf buf' off bl mbl off' hwf hc hw
      cases p with
      | mk pid entries =>
        simp only [wfPacket, Bool.and_eq_true, decide_eq_true_eq] at hwf
        obtain ⟨⟨hpid, hnd⟩, hwfe⟩ := hwf
        cases v with
        | vNum m => simp [conformsPacket] at hc
        | vStr cs => simp [conformsPacket] at hc
        | vFlags bs => simp [conformsPacket] at hc
        | vArr es => simp [conformsPacket] at hc
        | vOpt o => simp [conformsPacket] at hc
        | vObj fields =>
          simp only [conformsPacket] at hc
          simp only [write, asObj] at hw
          cases hset : setPrim .u8 buf ((pid : Int)) off with
          | error e =>
            simp only [hset] at hw
            exact Except.noConfusion hw
          | ok buf₁ =>
            simp only [hset] at hw
            obtain ⟨hs1, hs2, hs3, hs4⟩ := setPrim_ok hset
            have hsz8 : byteSize Field.u8 = 1 := rfl
            rw [hsz8] at hs2 hs4
            have hlk : ∀ nv ∈ fields, getField fields nv.1 = nv.2 := by
              intro nv hnv
              apply getField_of_nodup fields nv _ hnv
              rw [conformsEntries_names entries fields hc]
              exact hnd
            have hEnt : WriteReadE entries :=
              (ih (sizeOf entries) (by simp at hsz; omega)).2.1 entries (le_refl _)
            have hrec := hEnt fields fields buf₁ buf' (off + 1) bl mbl off'
              hwfe hc hlk (by omega) hw
            obtain ⟨hA, ⟨hB1, hB2⟩, hC, hD, hE⟩ := hrec
            have hmineq : Packet.minimumByteLength (.mk pid entries) =
                1 + minLenEntries entries := rfl
            refine ⟨by omega, ⟨by omega, hB2⟩, ?_, by omega, ?_⟩
            · intro i hi
              rw [hC i (by omega)]
              exact hs3 i (Or.inl hi)
            · intro g δ hgl hag
              have hnb : ¬(g.length + (off + δ) <
                  Packet.minimumByteLength (Packet.mk pid entries)) := by
                rw [hmineq]; omega
              simp only [read]
              rw [if_neg hnb]
              have htag : getPrim .u8 g (off + δ) = .ok ((pid : Int)) := by
                apply getPrim_of_agree
                  (by simp only [primRangeOk, Bool.and_eq_true, decide_eq_true_eq]; omega)
                  (by rw [hsz8]; omega)
                rw [hsz8]
                intro j hj
                have hj0 : j = 0 := by omega
                subst hj0
                have h1 : g[off + δ + 0]? = g[off + δ]? := by norm_num
                rw [h1, hag off le_rfl (by omega), hC off (by omega)]
                have := hs4 0 (by omega)
                simpa using this
              rw [htag]
              have hrE := hE g δ hgl (fun i h1 h2 => hag i (by omega) h2)
              have hidx : off + δ + 1 = off + 1 + δ := by omega
              simp only [hidx, hrE]
              simp
    · -- entry lists
      intro entries hsz
      intro fields fs buf buf' off bl mbl off' hwf hc hlk hoff hw
      cases entries with
      | nil =>
        simp only [writeEntries, Except.ok.injEq, Prod.mk.injEq] at hw
        obtain ⟨h1, h2⟩ := hw
        subst h1 h2
        cases fs with
        | cons nv fs' => simp [conformsEntries] at hc
        | nil =>
          refine ⟨le_rfl, ⟨le_rfl, hoff⟩, fun i _ => rfl, by simp [minLenEntries], ?_⟩
          intro g δ _ _
          rw [readEntries]
      | cons e rest =>
        obtain ⟨name, d⟩ := e
        simp only [writeEntries] at hw
        cases hwd : writeDef d (getField fields name) buf off bl mbl with
        | error e =>
          simp only [hwd] at hw
          exact Except.noConfusion hw
        | ok r =>
          obtain ⟨buf₁, off₁, bl₁, mbl₁⟩ := r
          simp only [hwd] at hw
          cases fs with
          | nil => simp [conformsEntries] at hc
          | cons nv fs' =>
            obtain ⟨n', v⟩ := nv
            simp only [conformsEntries, Bool.and_eq_true, decide_eq_true_eq] at hc
            obtain ⟨⟨hn, hcd⟩, hcrest⟩ := hc
            subst hn
            have hdata : getField fields n' = v := hlk (n', v) (by simp)
            rw [hdata] at hwd
            simp only [wfEntries, Bool.and_eq_true] at hwf
            have hD : WriteReadD d :=
              (ih (sizeOf d) (by simp at hsz; omega)).2.2.1 d (le_refl _)
            have hE : WriteReadE rest :=
              (ih (sizeOf rest) (by simp at hsz; omega)).2.1 rest (le_refl _)
            have h1 := hD v buf buf₁ off bl mbl off₁ bl₁ mbl₁ hwf.1 hcd hoff hwd
            obtain ⟨h1A, ⟨h1B1, h1B2⟩, h1C, h1D, h1E⟩ := h1
            have h2 := hE fields fs' buf₁ buf' off₁ bl₁ mbl₁ off'
              hwf.2 hcrest (fun nv hnv => hlk nv (List.mem_cons_of_mem _ hnv)) h1B2 hw
            obtain ⟨h2A, ⟨h2B1, h2B2⟩, h2C, h2D, h2E⟩ := h2
            have hminc : minLenEntries ((n', d) :: rest) =
                minLenDef d + minLenEntries rest := rfl
            refine ⟨by omega, ⟨by omega, h2B2⟩, ?_, by omega, ?_⟩
            · intro i hi
              rw [h2C i (by omega), h1C i hi]
            · intro g δ hgl hag
              rw [readEntries]
              have hagd : ∀ i, off ≤ i → i < off₁ → g[i + δ]? = buf₁[i]? := by
                intro i ha hb
                rw [hag i ha (by omega), h2C i hb]
              have hagr : ∀ i, off₁ ≤ i → i < off' → g[i + δ]? = buf'[i]? :=
                fun i ha hb => hag i (by omega) hb
              simp only [h1E g δ (by omega) hagd, h2E g δ hgl hagr]
    · -- single entries
      intro d hsz
      intro data buf buf' off bl mbl off' bl' mbl' hwf hc hoff hw
      cases d with
      | prim f =>
        cases data with
        | vNum m =>
          simp only [conformsDef] at hc
          simp only [writeDef, asInt] at hw
          cases hset : setPrim f buf m off with
          | error e => simp only [hset] at hw; exact Except.noConfusion hw
          | ok buf₁ =>
            simp only [hset, Except.ok.injEq, Prod.mk.injEq] at hw
            obtain ⟨hb, ho, hbl, hmbl⟩ := hw
            subst hb ho
            obtain ⟨hs1, hs2, hs3, hs4⟩ := setPrim_ok hset
            refine ⟨by omega, ⟨by omega, by omega⟩, ?_, ?_, ?_⟩
            · intro i hi; exact hs3 i (Or.inl hi)
            · simp only [minLenDef]; omega
            · intro g δ hgl hag
              have hgp : getPrim f g (off + δ) = .ok m := by
                apply getPrim_of_agree hc (by omega)
                intro j hj
                have hidx : off + δ + j = off + j + δ := by omega
                rw [hidx, hag (off + j) (by omega) (by omega), hs4 j hj]
              simp only [readDef, hgp]
              have hidx2 : off + δ + byteSize f = off + byteSize f + δ := by omega
              rw [hidx2]
        | vStr cs => simp [conformsDef] at hc
        | vFlags bs => simp [conformsDef] at hc
        | vArr es => simp [conformsDef] at hc
        | vOpt o => simp [conformsDef] at hc
        | vObj fso => simp [conformsDef] at hc
      | strF =>
        cases data with
        | vStr cs =>
          simp only [conformsDef, Bool.and_eq_true, decide_eq_true_eq,
            List.all_eq_true] at hc
          obtain ⟨hlen, hascii'⟩ := hc
          have hascii : ∀ c ∈ cs, c < 128 := by
            intro c hcm
            have := hascii' c hcm
            simpa using this
          simp only [writeDef, asStr] at hw
          cases hset : setPrim .u16 buf ((cs.length : Int)) off with
          | error e => simp only [hset] at hw; exact Except.noConfusion hw
          | ok buf₁ =>
            simp only [hset] at hw
            cases henc : encodeStringIntoDataView buf₁ (off + 2) cs with
            | error e => simp only [henc] at hw; exact Except.noConfusion hw
            | ok buf₂ =>
              simp only [henc, Except.ok.injEq, Prod.mk.injEq] at hw
              obtain ⟨hb, ho, hbl, hmbl⟩ := hw
              subst hb ho
              obtain ⟨w1, w2, w3, w4⟩ := strWrite_step cs buf buf₁ buf₂ off hlen hascii hset henc
              refine ⟨by omega, ⟨by omega, by omega⟩, ?_, ?_, ?_⟩
              · intro i hi; exact w3 i (Or.inl hi)
              · simp only [minLenDef]; omega
              · intro g δ hgl hag
                obtain ⟨hgp, hdec⟩ := w4 g δ (by omega) hag
                have htn : (((cs.length : Nat) : Int)).toNat = cs.length :=
                  Int.toNat_natCast _
                simp only [readDef, hgp, htn, hdec]
                have hidx : off + δ + 2 + cs.length = off + 2 + cs.length + δ := by omega
                rw [hidx]
        | vNum m => simp [conformsDef] at hc
        | vFlags bs => simp [conformsDef] at hc
        | vArr es => simp [conformsDef] at hc
        | vOpt o => simp [conformsDef] at hc
        | vObj fso => simp [conformsDef] at hc
      | bitflags names =>
        cases data with
        | vFlags bs =>
          simp only [conformsDef, decide_eq_true_eq] at hc
          simp only [wfDef, decide_eq_true_eq] at hwf
          simp only [writeDef, asFlags] at hw
          cases hset : setPrim .u8 buf ((flagsByte names bs : Int)) off with
          | error e => simp only [hset] at hw; exact Except.noConfusion hw
          | ok buf₁ =>
            simp only [hset, Except.ok.injEq, Prod.mk.injEq] at hw
            obtain ⟨hb, ho, hbl, hmbl⟩ := hw
            subst hb ho
            obtain ⟨hs1, hs2, hs3, hs4⟩ := setPrim_ok hset
            have hsz8 : byteSize Field.u8 = 1 := rfl
            rw [hsz8] at hs2 hs4
            refine ⟨by omega, ⟨by omega, by omega⟩, ?_, ?_, ?_⟩
            · intro i hi; exact hs3 i (Or.inl hi)
            · simp only [minLenDef]; omega
            · intro g δ hgl hag
              have hfl : flagsByte names bs < 256 := flagsByte_lt names bs hwf
              have hgp : getPrim .u8 g (off + δ) = .ok ((flagsByte names bs : Int)) := by
                apply getPrim_of_agree
                  (by simp only [primRangeOk, Bool.and_eq_true, decide_eq_true_eq]; omega)
                  (by rw [hsz8]; omega)
                rw [hsz8]
                intro j hj
                have hj0 : j = 0 := by omega
                subst hj0
                have h1 : g[off + δ + 0]? = g[off + δ]? := by norm_num
                rw [h1, hag off le_rfl (by omega)]
                have := hs4 0 (by omega)
                simpa using this
              simp only [readDef, hgp]
              have htn : (((flagsByte names bs : Nat) : Int)).toNat = flagsByte names bs :=
                Int.toNat_natCast _
              simp only [htn]
              rw [flags_roundtrip names bs hc]
              have hidx : off + δ + 1 = off + 1 + δ := by omega
              rw [hidx]
        | vNum m => simp [conformsDef] at hc
        | vStr cs => simp [conformsDef] at hc
        | vArr es => simp [conformsDef] at hc
        | vOpt o => simp [conformsDef] at hc
        | vObj fso => simp [conformsDef] at hc
      | optionalF sub =>
        simp only [wfDef] at hwf
        have hP : WriteReadP sub :=
          (ih (sizeOf sub) (by simp at hsz; omega)).1 sub (le_refl _)
        cases data with
        | vOpt o =>
          cases o with
          | none =>
            simp only [writeDef] at hw
            cases hset : setPrim .u8 buf 0 off with
            | error e => simp only [hset] at hw; exact Except.noConfusion hw
            | ok buf₁ =>
              simp only [hset, Except.ok.injEq, Prod.mk.injEq] at hw
              obtain ⟨hb, ho, hbl, hmbl⟩ := hw
              subst hb ho
              obtain ⟨hs1, hs2, hs3, hs4⟩ := setPrim_ok hset
              have hsz8 : byteSize Field.u8 = 1 := rfl
              rw [hsz8] at hs2 hs4
              refine ⟨by omega, ⟨by omega, by omega⟩, ?_, ?_, ?_⟩
              · intro i hi; exact hs3 i (Or.inl hi)
              · simp only [minLenDef]; omega
              · intro g δ hgl hag
                have hgp : getPrim .u8 g (off + δ) = .ok (0 : Int) := by
                  apply getPrim_of_agree (by decide) (by rw [hsz8]; omega)
                  rw [hsz8]
                  intro j hj
                  have hj0 : j = 0 := by omega
                  subst hj0
                  have h1 : g[off + δ + 0]? = g[off + δ]? := by norm_num
                  rw [h1, hag off le_rfl (by omega)]
                  have := hs4 0 (by omega)
                  simpa using this
                simp only [readDef, hgp]
                rw [if_neg (show ¬((0 : Int) ≠ 0) by norm_num)]
                have hidx : off + δ + 1 = off + 1 + δ := by omega
                rw [hidx]
          | some w =>
            simp only [conformsDef] at hc
            simp only [writeDef] at hw
            cases hset : setPrim .u8 buf 1 off with
            | error e => simp only [hset] at hw; exact Except.noConfusion hw
            | ok buf₁ =>
              simp only [hset] at hw
              obtain ⟨hg1, hg2⟩ := growIf_facts buf₁ (mbl + Packet.minimumByteLength sub)
              cases hw₂ : write sub w
                  (if buf₁.length < mbl + Packet.minimumByteLength sub then
                    growDataView buf₁ (mbl + Packet.minimumByteLength sub) else buf₁)
                  (off + 1) (bl + Packet.minimumByteLength sub)
                  (mbl + Packet.minimumByteLength sub) with
              | error e => simp only [hw₂] at hw; exact Except.noConfusion hw
              | ok r =>
                obtain ⟨buf₃, offw⟩ := r
                simp only [hw₂, Except.ok.injEq, Prod.mk.injEq] at hw
                obtain ⟨hb, ho, hbl, hmbl⟩ := hw
                subst hb ho
                obtain ⟨hs1, hs2, hs3, hs4⟩ := setPrim_ok hset
                have hsz8 : byteSize Field.u8 = 1 := rfl
                rw [hsz8] at hs2 hs4
                obtain ⟨rA, ⟨rB1, rB2⟩, rC, rD, rE⟩ :=
                  hP w _ buf₃ (off + 1) (bl + Packet.minimumByteLength sub)
                    (mbl + Packet.minimumByteLength sub) offw hwf hc hw₂
                refine ⟨by omega, ⟨by omega, rB2⟩, ?_, ?_, ?_⟩
                · intro i hi
                  rw [rC i (by omega), hg2 i (by omega), hs3 i (Or.inl hi)]
                · simp only [minLenDef]; omega
                · intro g δ hgl hag
                  have hgp : getPrim .u8 g (off + δ) = .ok (1 : Int) := by
                    apply getPrim_of_agree (by decide) (by rw [hsz8]; omega)
                    rw [hsz8]
                    intro j hj
                    have hj0 : j = 0 := by omega
                    subst hj0
                    have h1 : g[off + δ + 0]? = g[off + δ]? := by norm_num
                    rw [h1, hag off le_rfl (by omega), rC off (by omega),
                      hg2 off (by omega)]
                    have := hs4 0 (by omega)
                    simpa using this
                  simp only [readDef, hgp]
                  rw [if_pos (show (1 : Int) ≠ 0 by norm_num)]
                  have hrE := rE g δ hgl (fun i h1 h2 => hag i (by omega) h2)
                  have hidx : off + δ + 1 = off + 1 + δ := by omega
                  simp only [hidx, hrE]
        | vNum m => simp [conformsDef] at hc
        | vStr cs => simp [conformsDef] at hc
        | vFlags bs => simp [conformsDef] at hc
        | vArr es => simp [conformsDef] at hc
        | vObj fso => simp [conformsDef] at hc
      | packetF sub =>
        simp only [wfDef] at hwf
        simp only [conformsDef] at hc
        have hP : WriteReadP sub :=
          (ih (sizeOf sub) (by simp at hsz; omega)).1 sub (le_refl _)
        simp only [writeDef] at hw
        cases hw₂ : write sub data buf off bl mbl with
        | error e => simp only [hw₂] at hw; exact Except.noConfusion hw
        | ok r =>
          obtain ⟨buf₃, offw⟩ := r
          simp only [hw₂, Except.ok.injEq, Prod.mk.injEq] at hw
          obtain ⟨hb, ho, hbl, hmbl⟩ := hw
          subst hb ho
          obtain ⟨rA, ⟨rB1, rB2⟩, rC, rD, rE⟩ :=
            hP data buf buf₃ off bl mbl offw hwf hc hw₂
          refine ⟨rA, ⟨rB1, rB2⟩, rC, ?_, ?_⟩
          · simp only [minLenDef]
            exact rD
          · intro g δ hgl hag
            simp only [readDef]
            exact rE g δ hgl hag
      | arr item fl =>
        simp only [wfDef] at hwf
        have hI : WriteReadI item :=
          (ih (sizeOf item) (by simp at hsz; omega)).2.2.2 item (le_refl _)
        cases data with
        | vArr vs =>
          cases fl with
          | none =>
            simp only [conformsDef, Bool.and_eq_true, decide_eq_true_eq] at hc
            obtain ⟨hcnt, hce⟩ := hc
            cases item with
            | packetI sub =>
              simp only [writeDef, asArr] at hw
              cases hset : setPrim .u8 buf ((vs.length : Int)) off with
              | error e => simp only [hset] at hw; exact Except.noConfusion hw
              | ok buf₁ =>
                simp only [hset] at hw
                by_cases hvs : vs.length > 0
                · rw [if_pos hvs] at hw
                  have hw' : writeElems (.packetI sub) vs
                      (if buf₁.length < mbl + vs.length * Packet.minimumByteLength sub then
                        growDataView buf₁ (mbl + vs.length * Packet.minimumByteLength sub)
                      else buf₁)
                      (off + 1) (bl + vs.length * Packet.minimumByteLength sub)
                      (mbl + vs.length * Packet.minimumByteLength sub) =
                      .ok (buf', off', bl', mbl') := hw
                  obtain ⟨hg1, hg2⟩ :=
                    growIf_facts buf₁ (mbl + vs.length * Packet.minimumByteLength sub)
                  have hstep := dynArrStep (.packetI sub) vs buf buf₁ _ buf' off
                    (bl + vs.length * Packet.minimumByteLength sub)
                    (mbl + vs.length * Packet.minimumByteLength sub) off' bl' mbl'
                    hI hwf hce (by omega) hset hg1 hg2 hw'
                  obtain ⟨sA, sB, sC, sD, sE⟩ := hstep
                  exact ⟨sA, sB, sC, by simp only [minLenDef]; omega, sE⟩
                · rw [if_neg hvs] at hw
                  have hvs0 : vs = [] := List.eq_nil_of_length_eq_zero (by omega)
                  subst hvs0
                  simp only [Except.ok.injEq, Prod.mk.injEq] at hw
                  obtain ⟨hb, ho, hbl, hmbl⟩ := hw
                  subst hb ho
                  obtain ⟨hs1, hs2, hs3, hs4⟩ := setPrim_ok hset
                  have hsz8 : byteSize Field.u8 = 1 := rfl
                  rw [hsz8] at hs2 hs4
                  refine ⟨by omega, ⟨by omega, by omega⟩, ?_, ?_, ?_⟩
                  · intro i hi; exact hs3 i (Or.inl hi)
                  · simp only [minLenDef]; omega
                  · intro g δ hgl hag
                    have hgp : getPrim .u8 g (off + δ) =
                        .ok (((([] : List Value).length : Nat) : Int)) := by
                      apply getPrim_of_agree (by decide) (by rw [hsz8]; omega)
                      rw [hsz8]
                      intro j hj
                      have hj0 : j = 0 := by omega
                      subst hj0
                      have h1 : g[off + δ + 0]? = g[off + δ]? := by norm_num
                      rw [h1, hag off le_rfl (by omega)]
                      have := hs4 0 (by omega)
                      simpa using this
                    simp only [readDef, hgp, List.length_nil, Nat.cast_zero,
                      Int.toNat_zero]
                    simp only [readElems]
                    have hidx : off + δ + 1 = off + 1 + δ := by omega
                    rw [hidx]
            | strI =>
              simp only [writeDef, asArr] at hw
              cases hset : setPrim .u8 buf ((vs.length : Int)) off with
              | error e => simp only [hset] at hw; exact Except.noConfusion hw
              | ok buf₁ =>
                simp only [hset] at hw
                by_cases hvs : vs.length > 0
                · rw [if_pos hvs] at hw
                  have hw' : writeElems .strI vs buf₁ (off + 1) bl mbl =
                      .ok (buf', off', bl', mbl') := hw
                  have hstep := dynArrStep .strI vs buf buf₁ buf₁ buf' off bl mbl
                    off' bl' mbl' hI hwf hce (by omega) hset le_rfl
                    (fun i _ => rfl) hw'
                  obtain ⟨sA, sB, sC, sD, sE⟩ := hstep
                  exact ⟨sA, sB, sC, by simp only [minLenDef]; omega, sE⟩
                · rw [if_neg hvs] at hw
                  have hvs0 : vs = [] := List.eq_nil_of_length_eq_zero (by omega)
                  subst hvs0
                  simp only [Except.ok.injEq, Prod.mk.injEq] at hw
                  obtain ⟨hb, ho, hbl, hmbl⟩ := hw
                  subst hb ho
                  obtain ⟨hs1, hs2, hs3, hs4⟩ := setPrim_ok hset
                  have hsz8 : byteSize Field.u8 = 1 := rfl
                  rw [hsz8] at hs2 hs4
                  refine ⟨by omega, ⟨by omega, by omega⟩, ?_, ?_, ?_⟩
                  · intro i hi; exact hs3 i (Or.inl hi)
                  · simp only [minLenDef]; omega
                  · intro g δ hgl hag
                    have hgp : getPrim .u8 g (off + δ) =
                        .ok (((([] : List Value).length : Nat) : Int)) := by
                      apply getPrim_of_agree (by decide) (by rw [hsz8]; omega)
                      rw [hsz8]
                      intro j hj
                      have hj0 : j = 0 := by omega
                      subst hj0
                      have h1 : g[off + δ + 0]? = g[off + δ]? := by norm_num
                      rw [h1, hag off le_rfl (by omega)]
                      have := hs4 0 (by omega)
                      simpa using this
                    simp only [readDef, hgp, List.length_nil, Nat.cast_zero,
                      Int.toNat_zero]
                    simp only [readElems]
                    have hidx : off + δ + 1 = off + 1 + δ := by omega
                    rw [hidx]
            | primI f =>
              simp only [writeDef, asArr] at hw
              cases hset : setPrim .u8 buf ((vs.length : Int)) off with
              | error e => simp only [hset] at hw; exact Except.noConfusion hw
              | ok buf₁ =>
                simp only [hset] at hw
                by_cases hvs : vs.length > 0
                · rw [if_pos hvs] at hw
                  have hw' : writeElems (.primI f) vs
                      (if buf₁.length < mbl + vs.length * byteSize f then
                        growDataView buf₁ (mbl + vs.length * byteSize f)
                      else buf₁)
                      (off + 1) (bl + vs.length * byteSize f)
                      (mbl + vs.length * byteSize f) =
                      .ok (buf', off', bl', mbl') := hw
                  obtain ⟨hg1, hg2⟩ := growIf_facts buf₁ (mbl + vs.length * byteSize f)
                  have hstep := dynArrStep (.primI f) vs buf buf₁ _ buf' off
                    (bl + vs.length * byteSize f) (mbl + vs.length * byteSize f)
                    off' bl' mbl' hI hwf hce (by omega) hset hg1 hg2 hw'
                  obtain ⟨sA, sB, sC, sD, sE⟩ := hstep
                  exact ⟨sA, sB, sC, by simp only [minLenDef]; omega, sE⟩
                · rw [if_neg hvs] at hw
                  have hvs0 : vs = [] := List.eq_nil_of_length_eq_zero (by omega)
                  subst hvs0
                  simp only [Except.ok.injEq, Prod.mk.injEq] at hw
                  obtain ⟨hb, ho, hbl, hmbl⟩ := hw
                  subst hb ho
                  obtain ⟨hs1, hs2, hs3, hs4⟩ := setPrim_ok hset
                  have hsz8 : byteSize Field.u8 = 1 := rfl
                  rw [hsz8] at hs2 hs4
                  refine ⟨by omega, ⟨by omega, by omega⟩, ?_, ?_, ?_⟩
                  · intro i hi; exact hs3 i (Or.inl hi)
                  · simp only [minLenDef]; omega
                  · intro g δ hgl hag
                    have hgp : getPrim .u8 g (off + δ) =
                        .ok (((([] : List Value).length : Nat) : Int)) := by
                      apply getPrim_of_agree (by decide) (by rw [hsz8]; omega)
                      rw [hsz8]
                      intro j hj
                      have hj0 : j = 0 := by omega
                      subst hj0
                      have h1 : g[off + δ + 0]? = g[off + δ]? := by norm_num
                      rw [h1, hag off le_rfl (by omega)]
                      have := hs4 0 (by omega)
                      simpa using this
                    simp only [readDef, hgp, List.length_nil, Nat.cast_zero,
                      Int.toNat_zero]
                    simp only [readElems]
                    have hidx : off + δ + 1 = off + 1 + δ := by omega
                    rw [hidx]
          | some len =>
            simp only [conformsDef, Bool.and_eq_true, decide_eq_true_eq] at hc
            obtain ⟨hlenvs, hce⟩ := hc
            simp only [writeDef, asArr] at hw
            by_cases hvs : vs.length > 0
            · rw [if_pos hvs] at hw
              obtain ⟨rA, ⟨rB1, rB2⟩, rC, rD, rE⟩ :=
                hI vs buf buf' off bl mbl off' bl' mbl' hwf hce hoff hw
              refine ⟨rA, ⟨rB1, rB2⟩, rC, ?_, ?_⟩
              · simp only [minLenDef]
                rw [← hlenvs]
                exact rD
              · intro g δ hgl hag
                have hrE := rE g δ hgl hag
                simp only [readDef]
                rw [← hlenvs]
                simp only [hrE]
            · rw [if_neg hvs] at hw
              have hvs0 : vs = [] := List.eq_nil_of_length_eq_zero (by omega)
              subst hvs0
              simp only [Except.ok.injEq, Prod.mk.injEq] at hw
              obtain ⟨hb, ho, hbl, hmbl⟩ := hw
              subst hb ho
              refine ⟨le_rfl, ⟨le_rfl, hoff⟩, fun i _ => rfl, ?_, ?_⟩
              · simp only [minLenDef]
                rw [← hlenvs]
                simp
              · intro g δ hgl hag
                simp only [readDef]
                rw [← hlenvs]
                simp only [List.length_nil, readElems]
        | vNum m => cases fl <;> simp [conformsDef] at hc
        | vStr cs => cases fl <;> simp [conformsDef] at hc
        | vFlags bs => cases fl <;> simp [conformsDef] at hc
        | vOpt o => cases fl <;> simp [conformsDef] at hc
        | vObj fso => cases fl <;> simp [conformsDef] at hc
    · -- array elements
      intro it hsz
      have hPs : ∀ sub : Packet, sizeOf sub < sizeOf it → WriteReadP sub := by
        intro sub hlt
        exact (ih (sizeOf sub) (by omega)).1 sub (le_refl _)
      intro vs
      induction vs with
      | nil =>
        intro buf buf' off bl mbl off' bl' mbl' hwf hc hoff hw
        simp only [writeElems, Except.ok.injEq, Prod.mk.injEq] at hw
        obtain ⟨hb, ho, hbl, hmbl⟩ := hw
        subst hb ho
        refine ⟨le_rfl, ⟨le_rfl, hoff⟩, fun i _ => rfl, by simp, ?_⟩
        intro g δ _ _
        simp [readElems]
      | cons v rest ihv =>
        intro buf buf' off bl mbl off' bl' mbl' hwf hc hoff hw
        cases it with
        | packetI sub =>
          simp only [conformsElems, conformsItem, Bool.and_eq_true] at hc
          obtain ⟨hcv, hcrest⟩ := hc
          have hwf' : wfPacket sub = true := by
            simp only [wfItem] at hwf
            exact hwf
          simp only [writeElems] at hw
          cases hw₁ : write sub v buf off bl mbl with
          | error e => simp only [hw₁] at hw; exact Except.noConfusion hw
          | ok r =>
            obtain ⟨buf₁, off₁⟩ := r
            simp only [hw₁] at hw
            have hP := hPs sub (by simp)
            obtain ⟨aA, ⟨aB1, aB2⟩, aC, aD, aE⟩ :=
              hP v buf buf₁ off bl mbl off₁ hwf' hcv hw₁
            obtain ⟨bA, ⟨bB1, bB2⟩, bC, bD, bE⟩ :=
              ihv buf₁ buf' off₁ off₁ buf₁.length off' bl' mbl' hwf hcrest aB2 hw
            refine ⟨by omega, ⟨by omega, bB2⟩, ?_, ?_, ?_⟩
            · intro i hi
              rw [bC i (by omega), aC i hi]
            · have expand : (v :: rest).length * itemMinSize (ItemType.packetI sub) =
                  itemMinSize (ItemType.packetI sub) +
                    rest.length * itemMinSize (ItemType.packetI sub) := by
                rw [List.length_cons]; ring
              rw [expand]
              have h1 : off + itemMinSize (ItemType.packetI sub) ≤ off₁ := by
                simp only [itemMinSize]
                exact aD
              have h2 := bD
              linarith
            · intro g δ hgl hag
              have haE := aE g δ (by omega)
                (fun i h1 h2 => by rw [hag i h1 (by omega), bC i (by omega)])
              have hbE := bE g δ hgl (fun i h1 h2 => hag i (by omega) h2)
              simp only [List.length_cons, readElems, haE, hbE]
        | strI =>
          cases v with
          | vStr cs =>
            simp only [conformsElems, conformsItem, Bool.and_eq_true,
              decide_eq_true_eq, List.all_eq_true] at hc
            obtain ⟨⟨hlen, hascii'⟩, hcrest⟩ := hc
            have hascii : ∀ c ∈ cs, c < 128 := by
              intro c hcm
              have := hascii' c hcm
              simpa using this
            simp only [writeElems, asStr] at hw
            cases hset : setPrim .u16 buf ((cs.length : Int)) off with
            | error e => simp only [hset] at hw; exact Except.noConfusion hw
            | ok buf₁ =>
              simp only [hset] at hw
              cases henc : encodeStringIntoDataView buf₁ (off + 2) cs with
              | error e => simp only [henc] at hw; exact Except.noConfusion hw
              | ok buf₂ =>
                simp only [henc] at hw
                obtain ⟨w1, w2, w3, w4⟩ :=
                  strWrite_step cs buf buf₁ buf₂ off hlen hascii hset henc
                obtain ⟨bA, ⟨bB1, bB2⟩, bC, bD, bE⟩ :=
                  ihv buf₂ buf' (off + 2 + cs.length) bl mbl off' bl' mbl'
                    hwf hcrest (by omega) hw
                refine ⟨by omega, ⟨by omega, bB2⟩, ?_, ?_, ?_⟩
                · intro i hi
                  rw [bC i (by omega), w3 i (Or.inl hi)]
                · have h2 := bD
                  simp only [itemMinSize] at h2
                  simp only [List.length_cons, itemMinSize]
                  omega
                · intro g δ hgl hag
                  obtain ⟨hgp, hdec⟩ := w4 g δ (by omega)
                    (fun i h1 h2 => by rw [hag i h1 (by omega), bC i (by omega)])
                  have hbE := bE g δ hgl (fun i h1 h2 => hag i (by omega) h2)
                  have htn : (((cs.length : Nat) : Int)).toNat = cs.length :=
                    Int.toNat_natCast _
                  have hidx : off + δ + 2 + cs.length = off + 2 + cs.length + δ := by
                    omega
                  simp only [List.length_cons, readElems, hgp, htn, hdec, hidx, hbE]
          | vNum m => simp [conformsElems, conformsItem] at hc
          | vFlags bs => simp [conformsElems, conformsItem] at hc
          | vArr es => simp [conformsElems, conformsItem] at hc
          | vOpt o => simp [conformsElems, conformsItem] at hc
          | vObj fso => simp [conformsElems, conformsItem] at hc
        | primI f =>
          cases v with
          | vNum m =>
            simp only [conformsElems, conformsItem, Bool.and_eq_true] at hc
            obtain ⟨hcv, hcrest⟩ := hc
            simp only [writeElems, asInt] at hw
            cases hset : setPrim f buf m off with
            | error e => simp only [hset] at hw; exact Except.noConfusion hw
            | ok buf₁ =>
              simp only [hset] at hw
              obtain ⟨hs1, hs2, hs3, hs4⟩ := setPrim_ok hset
              obtain ⟨bA, ⟨bB1, bB2⟩, bC, bD, bE⟩ :=
                ihv buf₁ buf' (off + byteSize f) bl mbl off' bl' mbl'
                  hwf hcrest (by omega) hw
              refine ⟨by omega, ⟨by omega, bB2⟩, ?_, ?_, ?_⟩
              · intro i hi
                rw [bC i (by omega), hs3 i (Or.inl hi)]
              · have expand : ((Value.vNum m) :: rest).length *
                    itemMinSize (ItemType.primI f) =
                    itemMinSize (ItemType.primI f) +
                      rest.length * itemMinSize (ItemType.primI f) := by
                  rw [List.length_cons]; ring
                rw [expand]
                have h1 : off + itemMinSize (ItemType.primI f) ≤ off + byteSize f := by
                  simp [itemMinSize]
                have h2 := bD
                linarith
              · intro g δ hgl hag
                have hgp : getPrim f g (off + δ) = .ok m := by
                  apply getPrim_of_agree hcv (by omega)
                  intro j hj
                  have hidx : off + δ + j = off + j + δ := by omega
                  rw [hidx, hag (off + j) (by omega) (by omega),
                    bC (off + j) (by omega), hs4 j hj]
                have hbE := bE g δ hgl (fun i h1 h2 => hag i (by omega) h2)
                have hidx2 : off + δ + byteSize f = off + byteSize f + δ := by omega
                simp only [List.length_cons, readElems, hgp, hidx2, hbE]
          | vStr cs => simp [conformsElems, conformsItem] at hc
          | vFlags bs => simp [conformsElems, conformsItem] at hc
          | vArr es => simp [conformsElems, conformsItem] at hc
          | vOpt o => simp [conformsElems, conformsItem] at hc
          | vObj fso => simp [conformsElems, conformsItem] at hc

/-- Round-trip property at the packet level, for every well-formed descriptor. -/
theorem write_read (p : Packet) : WriteReadP p :=
  (writeReadAux (sizeOf p)).1 p (le_refl _)

/-- Round-trip property at the entry-list level. -/
theorem writeEntries_read (entries : List (String × FieldDef)) : WriteReadE entries :=
  (writeReadAux (sizeOf entries)).2.1 entries (le_refl _)

/-- Round-trip property for a single compiled entry. -/
theorem writeDef_read (d : FieldDef) : WriteReadD d :=
  (writeReadAux (sizeOf d)).2.2.1 d (le_refl _)

/-- Round-trip property for array elements. -/
theorem writeElems_read (item : ItemType) : WriteReadI item :=
  (writeReadAux (sizeOf item)).2.2.2 item (le_refl _)

end MainRoundTrip

section Claims

/-- C2: the claim says decoding fails with `OutOfBounds` precisely when
`limit - cursor < minimumByteLength`, never reading past the supplied length.
The source instead tests `byteLength + offset < minimumByteLength`, a `+`
where the stated design has a `-`.  At cursor 9 with supplied length 10
against a descriptor of minimum length 2, only one byte is available
(`10 - 9 = 1 < 2`), yet the decode succeeds — and its final offset 11 lies
past the supplied length 10. -/
theorem C2_bounds_check_uses_plus_not_minus :
    read (.mk 5 [("a", .prim .u8)]) [0, 0, 0, 0, 0, 0, 0, 0, 0, 5, 77] 9 10 =
      .ok (.vObj [("a", .vNum 77)], 11) ∧
    10 - 9 < Packet.minimumByteLength (.mk 5 [("a", .prim .u8)]) ∧
    10 < 11 := by
  refine ⟨?_, ?_, by omega⟩
  · simp [read, readEntries, readDef, getPrim, readBytesAt, viewGet, fromBE, byteSize,
      Except.map, Packet.minimumByteLength, minLenEntries, minLenDef]
  · simp [Packet.minimumByteLength, minLenEntries, minLenDef, byteSize]

/-- C3 counterexample: a buffer whose leading byte (9) differs from the
descriptor's tag (5) does not always fail with the type-mismatch error — when
the buffer is also shorter than the minimum length, the bounds check fires
first and the decode fails with `outOfBounds` instead. -/
theorem C3_mismatched_tag_can_fail_outOfBounds :
    read (.mk 5 [("a", .prim .u8)]) [9] 0 1 = .error .outOfBounds ∧
    getPrim .u8 [9] 0 = .ok 9 ∧ (9 : Int) ≠ ((5 : Nat) : Int) := by
  refine ⟨?_, ?_, by decide⟩
  · simp [read, Packet.minimumByteLength, minLenEntries, minLenDef, byteSize]
  · simp [getPrim, readBytesAt, viewGet, fromBE, byteSize, Except.map]

/-- C3 amended: whenever the decoder's entry bounds check passes
(`byteLength + cursor` is not below the minimum length) and the byte at the
cursor is readable but differs from the descriptor's tag, the decode always
fails with the type-mismatch error and returns no value.  Because `read` is
the one recursive decoding function, the same statement applies to every
nested message decoded recursively. -/
theorem C3_tag_mismatch_always_typeMismatch (pid : Nat) (entries : List (String × FieldDef))
    (buf : Buffer) (off byteLength : Nat) (tag : Int)
    (hbound : ¬(byteLength + off < Packet.minimumByteLength (.mk pid entries)))
    (hget : getPrim .u8 buf off = .ok tag) (hne : tag ≠ (pid : Int)) :
    read (.mk pid entries) buf off byteLength = .error .typeMismatch := by
  rw [read, if_neg hbound, hget]
  exact if_pos hne

/-- C3 amended, witness: tag byte 9 against descriptor tag 5 on a buffer long
enough for the bounds check. -/
theorem C3_tag_mismatch_witness :
    read (.mk 5 [("a", .prim .u8)]) [9, 0] 0 2 = .error .typeMismatch := by
  refine C3_tag_mismatch_always_typeMismatch 5 [("a", .prim .u8)] [9, 0] 0 2 9 ?_ ?_ ?_
  · simp [Packet.minimumByteLength, minLenEntries, minLenDef, byteSize]
  · simp [getPrim, readBytesAt, viewGet, fromBE, byteSize, Except.map]
  · decide

/-- C4: the claim (and the doc comment on `define`) says a non-integer packet
id such as `1.5` is rejected, but the validation only tests sign, finiteness
and the 255 bound — `3/2` passes every test, so `define(1.5, ...)` raises no
error.  The fixed-array length validation has the same gap. -/
theorem C4_define_accepts_noninteger_packetId :
    defineAccepts (3 / 2 : ℚ) = true ∧ ((3 / 2 : ℚ).den ≠ 1) ∧
    (0 ≤ (3 / 2 : ℚ)) ∧ ((3 / 2 : ℚ) ≤ 255) ∧
    fixedArrayLengthAccepts (3 / 2 : ℚ) = true := by
  refine ⟨?_, by norm_num, by norm_num, by norm_num, ?_⟩
  · simp [defineAccepts]; norm_num
  · simp [fixedArrayLengthAccepts]; norm_num

/-- C6: the pre-allocation size is claimed to be `minimumByteLength` plus the
runtime string content, equalling the committed bytes.  For a descriptor with
a direct nested message, `precalculateBufferLengthWithStrings` adds the
nested descriptor's full minimum length a second time (it is already inside
`minimumByteLength`), so the encoder allocates 3 bytes, commits only 2, and
returns a 3-byte buffer. -/
theorem C6_precalculation_over_allocates :
    precalculateBufferLengthWithStrings (.mk 1 [("e", .packetF (.mk 2 []))])
        (.vObj [("e", .vObj [])]) = 3 ∧
    Packet.minimumByteLength (.mk 1 [("e", .packetF (.mk 2 []))]) = 2 ∧
    writeDataView (.mk 1 [("e", .packetF (.mk 2 []))]) (.vObj [("e", .vObj [])]) =
      .ok ([1, 2, 0], 2) := by
  refine ⟨?_, ?_, ?_⟩
  · simp [precalculateBufferLengthWithStrings, precalcExtra, precalcDef,
      Packet.minimumByteLength, minLenEntries, minLenDef, asObj, getField]
  · simp [Packet.minimumByteLength, minLenEntries, minLenDef]
  · simp [writeDataView, write, writeEntries, writeDef, precalculateBufferLengthWithStrings,
      precalcExtra, precalcDef, Packet.minimumByteLength, minLenEntries, minLenDef,
      setPrim, writeBytesAt, viewSet, toBE, byteSize, asObj, asInt, getField,
      List.replicate]

/-- C1: encode/decode do not round-trip on every conforming value.  The value
`{o: {s: "x"}}` conforms to the descriptor `{o: FieldOptional({s:
FieldString()})}` (packet ids 1 and 2), but encoding it fails: the
precalculation records no string content for strings inside an optional
sub-message, the optional branch grows the buffer only by the sub-message's
minimum length, and the one content byte of `"x"` is then written past the
allocation (a `RangeError` on the DataView path, silent truncation on the
node-Buffer path). -/
theorem C1_roundtrip_fails_encode_overflow :
    conformsPacket (.mk 1 [("o", .optionalF (.mk 2 [("s", .strF)]))])
        (.vObj [("o", .vOpt (some (.vObj [("s", .vStr [120])])))]) = true ∧
    writeDataView (.mk 1 [("o", .optionalF (.mk 2 [("s", .strF)]))])
        (.vObj [("o", .vOpt (some (.vObj [("s", .vStr [120])])))]) = .error .rangeErr := by
  constructor
  · simp [conformsPacket, conformsEntries, conformsDef]
  · simp [writeDataView, write, writeEntries, writeDef, precalculateBufferLengthWithStrings,
      precalcExtra, precalcDef, Packet.minimumByteLength, minLenEntries, minLenDef,
      setPrim, writeBytesAt, viewSet, toBE, byteSize, asObj, asInt, asStr, getField,
      growDataView, encodeStringIntoDataView, List.replicate]

/-- The strict code-unit collation, read through `String`'s linear order. -/
theorem lexOrd_lt (a b : String) : lexOrd a b = .lt ↔ a < b := by
  unfold lexOrd
  split_ifs with h1 h2 <;> simp [h1]

/-- `lexOrd` answers `gt` exactly on strictly descending name pairs. -/
theorem lexOrd_gt (a b : String) : lexOrd a b = .gt ↔ b < a := by
  unfold lexOrd
  split_ifs with h1 h2
  · simp [lt_asymm h1]
  · simp [h2]
  · simp [h2]

/-- `lexOrd` is consistent: its `gt` and `lt` verdicts are mutually inverse. -/
theorem lexOrd_gt_iff (a b : String) : lexOrd a b = .gt ↔ lexOrd b a = .lt := by
  rw [lexOrd_gt, lexOrd_lt]

/-- The non-greater relation of `lexOrd` is the linear order's `≤`. -/
theorem lexOrd_not_gt (a b : String) : lexOrd a b ≠ .gt ↔ a ≤ b := by
  rw [Ne, lexOrd_gt, not_lt]

/-- The non-greater relation of `lexOrd` is transitive. -/
theorem lexOrd_trans (a b c : String) (h₁ : lexOrd a b ≠ .gt) (h₂ : lexOrd b c ≠ .gt) :
    lexOrd a c ≠ .gt := by
  rw [lexOrd_not_gt] at h₁ h₂ ⊢
  exact le_trans h₁ h₂

/-- `lexOrd` never ties two distinct names. -/
theorem lexOrd_eq (a b : String) (h : lexOrd a b = .eq) : a = b := by
  unfold lexOrd at h
  by_cases h1 : a < b
  · rw [if_pos h1] at h
    exact Ordering.noConfusion h
  · by_cases h2 : b < a
    · rw [if_neg h1, if_pos h2] at h
      exact Ordering.noConfusion h
    · exact le_antisymm (not_lt.mp h2) (not_lt.mp h1)

/-- `lexOrd` is reflexive-equal. -/
theorem lexOrd_self (a : String) : lexOrd a a = .eq := by
  unfold lexOrd
  split_ifs with h1
  · exact absurd h1 (lt_irrefl a)
  · rfl

/-- Permutations of a definition sort identically whenever the collation is
consistent (mutually inverse `gt`/`lt` verdicts, transitive non-greater
relation) and never ties two distinct field names. -/
theorem sortEntries_eq_of_perm (lc : String → String → Ordering)
    (d₁ d₂ : List (String × FieldDef))
    (hgtlt : ∀ a b, lc a b = .gt ↔ lc b a = .lt)
    (htr : ∀ a b c, lc a b ≠ .gt → lc b c ≠ .gt → lc a c ≠ .gt)
    (hsep : ∀ a b, lc a b = .eq → a = b)
    (hperm : d₁.Perm d₂) (hnd : (d₁.map Prod.fst).Nodup) :
    sortEntries lc d₁ = sortEntries lc d₂ := by
  haveI : IsTotal (String × FieldDef) (fun a b => lc a.1 b.1 ≠ .gt) := ⟨by
    intro a b
    by_cases h : lc a.1 b.1 = .gt
    · refine Or.inr ?_
      rw [(hgtlt a.1 b.1).mp h]
      simp
    · exact Or.inl h⟩
  haveI : IsTrans (String × FieldDef) (fun a b => lc a.1 b.1 ≠ .gt) :=
    ⟨fun a b c h₁ h₂ => htr a.1 b.1 c.1 h₁ h₂⟩
  haveI : IsAntisymm (String × FieldDef) (fun a b => lc a.1 b.1 = .lt) := ⟨by
    intro a b h₁ h₂
    have hgt := (hgtlt b.1 a.1).mpr h₁
    rw [h₂] at hgt
    exact Ordering.noConfusion hgt⟩
  have hp₁ := List.perm_insertionSort (fun a b : String × FieldDef => lc a.1 b.1 ≠ .gt) d₁
  have hp₂ := List.perm_insertionSort (fun a b : String × FieldDef => lc a.1 b.1 ≠ .gt) d₂
  have hs₁ := List.sorted_insertionSort (fun a b : String × FieldDef => lc a.1 b.1 ≠ .gt) d₁
  have hs₂ := List.sorted_insertionSort (fun a b : String × FieldDef => lc a.1 b.1 ≠ .gt) d₂
  have hperm' : (sortEntries lc d₁).Perm (sortEntries lc d₂) :=
    (hp₁.trans hperm).trans hp₂.symm
  have hlt : ∀ l : List (String × FieldDef),
      List.Sorted (fun a b : String × FieldDef => lc a.1 b.1 ≠ .gt) l →
      (l.map Prod.fst).Nodup →
      List.Sorted (fun a b : String × FieldDef => lc a.1 b.1 = .lt) l := by
    intro l hle hl
    refine List.Pairwise.imp ?_ (List.Pairwise.and hle (List.pairwise_map.mp hl))
    intro a b h
    cases hab : lc a.1 b.1 with
    | lt => rfl
    | eq => exact absurd (hsep a.1 b.1 hab) h.2
    | gt => exact absurd hab h.1
  have hnd₁ : ((sortEntries lc d₁).map Prod.fst).Nodup :=
    ((hp₁.map Prod.fst).nodup_iff).mpr hnd
  have hnd₂ : ((sortEntries lc d₂).map Prod.fst).Nodup :=
    ((hperm'.map Prod.fst).nodup_iff).mp hnd₁
  exact List.eq_of_perm_of_sorted hperm' (hlt _ hs₁ hnd₁) (hlt _ hs₂ hnd₂)

/-- C5 corrected: provided the host collation is consistent and never ties
two distinct field names, two definitions listing the same named fields in
different declaration orders compile to the same descriptor and hence encode
every value to the same byte sequence.  The premise is exactly what the
counterexample shows the real `localeCompare` lacks: ECMA-402 makes it tie
canonically equivalent distinct names, and the stable sort then preserves
their declaration order. -/
theorem C5_declaration_order_immaterial (lc : String → String → Ordering)
    (d₁ d₂ : List (String × FieldDef)) (id : Nat) (v : Value)
    (hgtlt : ∀ a b, lc a b = .gt ↔ lc b a = .lt)
    (htr : ∀ a b c, lc a b ≠ .gt → lc b c ≠ .gt → lc a c ≠ .gt)
    (hsep : ∀ a b, lc a b = .eq → a = b)
    (hperm : d₁.Perm d₂) (hnd : (d₁.map Prod.fst).Nodup) :
    define lc id d₁ = define lc id d₂ ∧
    writeDataView (define lc id d₁) v = writeDataView (define lc id d₂) v := by
  have h := sortEntries_eq_of_perm lc d₁ d₂ hgtlt htr hsep hperm hnd
  refine ⟨?_, ?_⟩ <;> simp [define, h]

/-- C5 witness: under the strict code-unit collation, `{b: u8, a: u16}` and
`{a: u16, b: u8}` compile to the same descriptor and encode the value
`{a: 300, b: 7}` to the same bytes. -/
theorem C5_declaration_order_witness :
    define lexOrd 1 [("b", .prim .u8), ("a", .prim .u16)] =
      define lexOrd 1 [("a", .prim .u16), ("b", .prim .u8)] ∧
    writeDataView (define lexOrd 1 [("b", .prim .u8), ("a", .prim .u16)])
        (.vObj [("a", .vNum 300), ("b", .vNum 7)]) =
      writeDataView (define lexOrd 1 [("a", .prim .u16), ("b", .prim .u8)])
        (.vObj [("a", .vNum 300), ("b", .vNum 7)]) :=
  C5_declaration_order_immaterial lexOrd _ _ 1 _
    lexOrd_gt_iff lexOrd_trans lexOrd_eq
    (List.Perm.swap (("a", FieldDef.prim Field.u16) : String × FieldDef)
      (("b", FieldDef.prim Field.u8) : String × FieldDef) [])
    (by simp)

/-- C5 counterexample: the claim's unrestricted statement fails on the real
comparator.  ECMA-402 requires `localeCompare` to return `0` on the
distinct, canonically equivalent names `"u\u0308"` (u with combining
diaeresis) and `"\u00FC"` (the precomposed letter), and the mandated stable
sort keeps tied names in declaration order, so the two declaration orders
compile to descriptors with different entry layouts, and the same two fields
holding the same two values — each object conforming to its compiled
descriptor — encode to different byte sequences: tag, u8, u16 against
tag, u16, u8. -/
theorem C5_locale_ties_leak_declaration_order :
    localeTie "u\u0308" "\u00FC" = .eq ∧ ("u\u0308" : String) ≠ "\u00FC" ∧
    [("u\u0308", FieldDef.prim .u8), ("\u00FC", FieldDef.prim .u16)].Perm
      [("\u00FC", FieldDef.prim .u16), ("u\u0308", FieldDef.prim .u8)] ∧
    Packet.entries (define localeTie 1
        [("u\u0308", .prim .u8), ("\u00FC", .prim .u16)]) =
      [("u\u0308", .prim .u8), ("\u00FC", .prim .u16)] ∧
    Packet.entries (define localeTie 1
        [("\u00FC", .prim .u16), ("u\u0308", .prim .u8)]) =
      [("\u00FC", .prim .u16), ("u\u0308", .prim .u8)] ∧
    conformsPacket (define localeTie 1
        [("u\u0308", .prim .u8), ("\u00FC", .prim .u16)])
      (.vObj [("u\u0308", .vNum 1), ("\u00FC", .vNum 2)]) = true ∧
    conformsPacket (define localeTie 1
        [("\u00FC", .prim .u16), ("u\u0308", .prim .u8)])
      (.vObj [("\u00FC", .vNum 2), ("u\u0308", .vNum 1)]) = true ∧
    writeDataView (define localeTie 1
        [("u\u0308", .prim .u8), ("\u00FC", .prim .u16)])
      (.vObj [("u\u0308", .vNum 1), ("\u00FC", .vNum 2)]) = .ok ([1, 1, 0, 2], 4) ∧
    writeDataView (define localeTie 1
        [("\u00FC", .prim .u16), ("u\u0308", .prim .u8)])
      (.vObj [("\u00FC", .vNum 2), ("u\u0308", .vNum 1)]) = .ok ([1, 0, 2, 1], 4) ∧
    ([1, 1, 0, 2] : Buffer) ≠ [1, 0, 2, 1] := by
  have h1 : localeTie "u\u0308" "\u00FC" = .eq := by
    unfold localeTie
    rw [if_pos rfl, if_neg (by decide : ¬("\u00FC" : String) = "u\u0308")]
    exact lexOrd_self _
  have h2 : localeTie "\u00FC" "u\u0308" = .eq := by
    unfold localeTie
    rw [if_neg (by decide : ¬("\u00FC" : String) = "u\u0308"), if_pos rfl]
    exact lexOrd_self _
  have hd₁ : define localeTie 1
      [("u\u0308", FieldDef.prim .u8), ("\u00FC", FieldDef.prim .u16)] =
      Packet.mk 1 [("u\u0308", .prim .u8), ("\u00FC", .prim .u16)] := by
    simp [define, sortEntries, List.insertionSort, List.orderedInsert, h1]
  have hd₂ : define localeTie 1
      [("\u00FC", FieldDef.prim .u16), ("u\u0308", FieldDef.prim .u8)] =
      Packet.mk 1 [("\u00FC", .prim .u16), ("u\u0308", .prim .u8)] := by
    simp [define, sortEntries, List.insertionSort, List.orderedInsert, h2]
  refine ⟨h1, by decide,
    List.Perm.swap (("\u00FC", FieldDef.prim Field.u16) : String × FieldDef)
      (("u\u0308", FieldDef.prim Field.u8) : String × FieldDef) [],
    by simp [hd₁, Packet.entries], by simp [hd₂, Packet.entries], ?_, ?_, ?_, ?_, by decide⟩
  · rw [hd₁]
    simp [conformsPacket, conformsEntries, conformsDef, primRangeOk]
  · rw [hd₂]
    simp [conformsPacket, conformsEntries, conformsDef, primRangeOk]
  · rw [hd₁]
    simp [writeDataView, write, writeEntries, writeDef,
      precalculateBufferLengthWithStrings, precalcExtra, precalcDef,
      Packet.minimumByteLength, minLenEntries, minLenDef, setPrim, writeBytesAt,
      viewSet, toBE, byteSize, asObj, asInt, getField, List.replicate]
  · rw [hd₂]
    simp [writeDataView, write, writeEntries, writeDef,
      precalculateBufferLengthWithStrings, precalcExtra, precalcDef,
      Packet.minimumByteLength, minLenEntries, minLenDef, setPrim, writeBytesAt,
      viewSet, toBE, byteSize, asObj, asInt, getField, List.replicate]

/-- C7: dispatch semantics of `visit`.  If the leading byte equals the tag of
visitor `B` and no earlier visitor's tag matches, dispatch runs exactly `B`'s
handler on the value obtained by decoding the buffer directly against `B` —
later visitors, including any sharing `B`'s tag, are ignored; if no visitor's
tag matches, no handler is invoked. -/
theorem C7_visit_dispatch {α : Type} (buf : Buffer) (tag : Int)
    (hget : getPrim .u8 buf 0 = .ok tag) :
    (∀ (va vb : List (Packet × (Value → α))) (B : Packet) (f : Value → α),
        (∀ q ∈ va, (q.1.packetId : Int) ≠ tag) → (B.packetId : Int) = tag →
        visit buf (va ++ (B, f) :: vb) =
          (read B buf 0 buf.length).map (fun r => some (f r.1))) ∧
    (∀ vs : List (Packet × (Value → α)),
        (∀ q ∈ vs, (q.1.packetId : Int) ≠ tag) → visit buf vs = .ok none) := by
  constructor
  · intro va vb B f hmiss hhit
    induction va with
    | nil =>
      rw [List.nil_append, visit, hget]
      exact if_pos hhit
    | cons q va ih =>
      rw [List.cons_append, visit, hget]
      exact (if_neg (hmiss q (by simp))).trans (ih fun q hq => hmiss q (by simp [hq]))
  · intro vs hmiss
    induction vs with
    | nil => rw [visit]
    | cons q vs ih =>
      rw [visit, hget]
      exact (if_neg (hmiss q (by simp))).trans (ih fun q hq => hmiss q (by simp [hq]))

/-- C7 witness: visitors for tags 1, 2, 3 and a buffer tagged 2 — exactly the
second handler runs, on the directly decoded value. -/
theorem C7_visit_dispatch_witness :
    visit [2] [(Packet.mk 1 [], fun _ => (1 : Nat)), (Packet.mk 2 [], fun _ => 2),
      (Packet.mk 3 [], fun _ => 3)] = .ok (some 2) ∧
    visit [7] [(Packet.mk 1 [], fun _ => (1 : Nat)), (Packet.mk 2 [], fun _ => 2),
      (Packet.mk 3 [], fun _ => 3)] = .ok none := by
  have hget2 : getPrim .u8 [2] 0 = .ok 2 := by
    simp [getPrim, readBytesAt, viewGet, fromBE, byteSize, Except.map]
  have hget7 : getPrim .u8 [7] 0 = .ok 7 := by
    simp [getPrim, readBytesAt, viewGet, fromBE, byteSize, Except.map]
  constructor
  · have h := (C7_visit_dispatch [2] 2 hget2).1
      [(Packet.mk 1 [], fun _ => (1 : Nat))] [(Packet.mk 3 [], fun _ => 3)]
      (Packet.mk 2 []) (fun _ => 2)
      (by intro q hq; simp at hq; subst hq; simp [Packet.packetId])
      (by simp [Packet.packetId])
    rw [List.singleton_append] at h
    rw [h]
    simp [read, readEntries, Packet.minimumByteLength, minLenEntries, getPrim,
      readBytesAt, viewGet, fromBE, byteSize, Except.map]
  · exact (C7_visit_dispatch [7] 7 hget7).2 _
      (by intro q hq; simp at hq
          rcases hq with h | h | h <;> subst h <;> simp [Packet.packetId])

/-- C8 counterexample: the string byte 233 written by the encoder (single
octet, `charCode & 0xff`) is not decoded back to the character 233 — decoding
runs UTF-8 with replacement, so the lone byte 233 becomes U+FFFD (65533).
Byte values 128–255 do not map 1:1 to characters. -/
theorem C8_byte_233_not_roundtripped :
    writeDataView (.mk 2 [("s", .strF)]) (.vObj [("s", .vStr [233])]) =
      .ok ([2, 0, 1, 233], 4) ∧
    readDataView (.mk 2 [("s", .strF)]) [2, 0, 1, 233] =
      .ok (.vObj [("s", .vStr [65533])], 4) ∧
    (65533 : Nat) ≠ 233 := by
  refine ⟨?_, ?_, by decide⟩
  · simp [writeDataView, write, writeEntries, writeDef, precalculateBufferLengthWithStrings,
      precalcExtra, precalcDef, Packet.minimumByteLength, minLenEntries, minLenDef,
      setPrim, writeBytesAt, viewSet, toBE, byteSize, asObj, asInt, asStr, getField,
      encodeStringIntoDataView, List.replicate]
  · simp [readDataView, read, readEntries, readDef, getPrim, readBytesAt, viewGet, fromBE,
      byteSize, Except.map, Packet.minimumByteLength, minLenEntries, minLenDef,
      decodeStringFromDataView, utf8Decode, utf8Step, utf8Cont]

/-- C8 amended: a string field's wire form is a 2-byte big-endian length
followed by that many raw bytes (`charCode & 0xff` each), and decoding runs
UTF-8 — so the round trip is the identity exactly on the documented contract:
strings whose code points lie in 0–127 (single-octet UTF-8), not 0–255. -/
theorem C8_string_field_wire_format (cs : List Nat) (buf buf' : Buffer)
    (off bl mbl off' bl' mbl' : Nat)
    (hlen : cs.length ≤ 65535) (hascii : ∀ c ∈ cs, c < 128)
    (hw : writeDef .strF (.vStr cs) buf off bl mbl = .ok (buf', off', bl', mbl')) :
    off' = off + 2 + cs.length ∧
    (∀ j, j < 2 → buf'[off + j]? = (viewSet .u16 (cs.length : Int))[j]?) ∧
    (∀ j, j < cs.length → buf'[off + 2 + j]? = cs[j]?) ∧
    readDef .strF buf' off buf'.length = .ok (.vStr cs, off + 2 + cs.length) := by
  simp only [writeDef, asStr] at hw
  cases hset : setPrim .u16 buf (cs.length : Int) off with
  | error e =>
    simp only [hset] at hw
    exact Except.noConfusion hw
  | ok buf₁ =>
    simp only [hset] at hw
    cases henc : encodeStringIntoDataView buf₁ (off + 2) cs with
    | error e =>
      simp only [henc] at hw
      exact Except.noConfusion hw
    | ok buf₂ =>
      simp only [henc, Except.ok.injEq, Prod.mk.injEq] at hw
      obtain ⟨hbuf, hoff, hbl, hmbl⟩ := hw
      subst hbuf hoff
      have hs := setPrim_ok hset
      rw [encodeStringIntoDataView] at henc
      have he := writeBytesAt_ok henc
      rw [List.length_map] at he
      have hlen2 : buf₂.length = buf.length := by rw [he.1, hs.1]
      have hsz : byteSize Field.u16 = 2 := rfl
      rw [hsz] at hs
      have hpre : ∀ j, j < 2 → buf₂[off + j]? = (viewSet .u16 (cs.length : Int))[j]? := by
        intro j hj
        rw [he.2.2.1 (off + j) (Or.inl (by omega)), hs.2.2.2 j hj]
      have hcon : ∀ j, j < cs.length → buf₂[off + 2 + j]? = cs[j]? := by
        intro j hj
        rw [he.2.2.2 j hj, List.getElem?_map, List.getElem?_eq_getElem hj]
        have hc : cs[j] < 128 := hascii _ (cs.getElem_mem hj)
        simp [Nat.mod_eq_of_lt (by omega : cs[j] < 256)]
      refine ⟨rfl, hpre, hcon, ?_⟩
      have hr : primRangeOk .u16 (cs.length : Int) = true := by
        simp only [primRangeOk, Bool.and_eq_true, decide_eq_true_eq]
        omega
      have hle16 : off + byteSize Field.u16 ≤ buf₂.length := by
        rw [hsz]; omega
      have hg : getPrim .u16 buf₂ off = .ok (cs.length : Int) :=
        getPrim_of_agree hr hle16 (by rw [hsz]; exact hpre)
      have htn : ((cs.length : Int)).toNat = cs.length := Int.toNat_natCast cs.length
      have hrd : decodeStringFromDataView buf₂ (off + 2) cs.length = .ok cs := by
        rw [decodeStringFromDataView,
          readBytesAt_of_agree rfl (by omega) (fun j hj => hcon j hj)]
        simp [Except.map, utf8Decode_ascii cs hascii]
      simp only [readDef, hg, htn, hrd]

/-- C8 amended, witness: the two-character ASCII string `"hi"` stored in a
5-byte buffer at offset 0 round-trips through the string entry codec. -/
theorem C8_string_field_wire_format_witness :
    readDef .strF [0, 2, 104, 105, 0] 0 5 = .ok (.vStr [104, 105], 4) := by
  have hw : writeDef .strF (.vStr [104, 105]) [0, 0, 0, 0, 0] 0 9 9 =
      .ok ([0, 2, 104, 105, 0], 4, 9, 9) := by
    simp [writeDef, setPrim, writeBytesAt, viewSet, toBE, byteSize, asStr,
      encodeStringIntoDataView]
  have h := C8_string_field_wire_format [104, 105] [0, 0, 0, 0, 0] [0, 2, 104, 105, 0]
    0 9 9 4 9 9 (by decide) (by decide) hw
  exact h.2.2.2

/-- The two setter tables and the two getter tables of the latest revision
agree byte-for-byte: on every in-range value the node-`Buffer` setter table
emits exactly the bytes the `DataView` setter table emits (one fixed
big-endian order), and the two getter tables decode every byte group to
equal values.  The full write pipelines nonetheless diverge — see the C9
theorem below. -/
theorem setGetTables_byte_identical :
    (∀ (f : Field) (v : Int), primRangeOk f v = true →
      bufWriteBytes f v = .ok (viewSet f v)) ∧
    (∀ (f : Field) (bs : List Nat), bufGet f bs = viewGet f bs) := by
  constructor
  · intro f v h
    rw [bufWriteBytes, if_pos h]
    cases f <;>
      simp only [primRangeOk, Bool.and_eq_true, decide_eq_true_eq] at h <;>
      simp only [viewSet, byteSize] <;>
      (congr 2; split_ifs <;> omega)
  · intro f bs
    cases f <;> simp only [bufGet, viewGet] <;> (try split_ifs) <;> omega

/-- Example of the table agreement: `-2` as a 16-bit signed value is written
`[255, 254]` by both backends, and both getters read `[1, 44]` as the
unsigned 16-bit value 300. -/
theorem setGetTables_byte_identical_example :
    bufWriteBytes .i16 (-2) = .ok (viewSet .i16 (-2)) ∧ viewSet .i16 (-2) = [255, 254] ∧
    bufGet .u16 [1, 44] = viewGet .u16 [1, 44] ∧ viewGet .u16 [1, 44] = 300 :=
  ⟨setGetTables_byte_identical.1 .i16 (-2) (by decide), by decide,
    setGetTables_byte_identical.2 .u16 [1, 44], by decide⟩

/-- C9: the claimed backend byte-identity of `writeDataView` and
`writeNodeBuffer` fails in the source, although the accessor tables
themselves agree (`setGetTables_byte_identical`).  The two string stores
behave differently exactly where the precalculation bug of claim C1 makes a
write run out of bounds: encoding that claim's value, the 5-byte buffer
holds `[1, 1, 2, 0, 1]` (tag, present, sub-tag, 2-byte length prefix) when
the single content byte `120` of `"x"` is stored at offset 5.  The
`DataView` path constructs a `Uint8Array` over the 1-byte target range and
throws a `RangeError`, while the node path's `encodeSmallString` performs
`buffer[5] = 120`, a silent out-of-range no-op: `writeNodeBuffer` returns a
buffer with the string content missing where `writeDataView` throws — two
different byte-level outcomes for the same descriptor and value.  (On
over-allocated descriptors, claim C6, the backends differ again: the node
path allocates with `Buffer.allocUnsafe`, returning arbitrary tail bytes
where the `DataView` path returns zeros.) -/
theorem C9_backends_diverge_on_overflow :
    encodeStringIntoDataView [1, 1, 2, 0, 1] 5 [120] = .error .rangeErr ∧
    encodeSmallString [1, 1, 2, 0, 1] 5 [120] = [1, 1, 2, 0, 1] := by
  constructor
  · rfl
  · rfl

/-- C10 (implicit): a buffer produced by a successful encode decodes back with
the shared offset advancing by exactly the byte length of that message's
encoding: reading the encoder's own buffer from offset 0 yields the value
together with the committed length, and two encodings laid back-to-back in
one buffer decode consecutively with a single shared offset, the second read
starting exactly where the first ended and ending at the sum of the two
encoded lengths. -/
theorem C10_offset_advance_back_to_back (p q : Packet) (v w : Value)
    (buf₁ buf₂ : Buffer) (n₁ n₂ : Nat)
    (hwfp : wfPacket p = true) (hcp : conformsPacket p v = true)
    (hwfq : wfPacket q = true) (hcq : conformsPacket q w = true)
    (hw₁ : writeDataView p v = .ok (buf₁, n₁))
    (hw₂ : writeDataView q w = .ok (buf₂, n₂)) :
    readDataView p buf₁ = .ok (v, n₁) ∧
    read p (buf₁.take n₁ ++ buf₂.take n₂) 0 (buf₁.take n₁ ++ buf₂.take n₂).length =
      .ok (v, n₁) ∧
    read q (buf₁.take n₁ ++ buf₂.take n₂) n₁ (buf₁.take n₁ ++ buf₂.take n₂).length =
      .ok (w, n₁ + n₂) := by
  simp only [writeDataView] at hw₁ hw₂
  obtain ⟨h1A, ⟨h1B1, h1B2⟩, h1C, h1D, h1E⟩ :=
    write_read p v (List.replicate (precalculateBufferLengthWithStrings p v) 0)
      buf₁ 0 (precalculateBufferLengthWithStrings p v)
      (precalculateBufferLengthWithStrings p v) n₁ hwfp hcp hw₁
  obtain ⟨h2A, ⟨h2B1, h2B2⟩, h2C, h2D, h2E⟩ :=
    write_read q w (List.replicate (precalculateBufferLengthWithStrings q w) 0)
      buf₂ 0 (precalculateBufferLengthWithStrings q w)
      (precalculateBufferLengthWithStrings q w) n₂ hwfq hcq hw₂
  have hlg : (buf₁.take n₁ ++ buf₂.take n₂).length = n₁ + n₂ := by
    simp [List.length_take]
    omega
  refine ⟨?_, ?_, ?_⟩
  · have h := h1E buf₁ 0 (by omega) (by intro i _ _; simp)
    simpa only [readDataView, Nat.add_zero, Nat.zero_add] using h
  · have hag : ∀ i, 0 ≤ i → i < n₁ →
        (buf₁.take n₁ ++ buf₂.take n₂)[i + 0]? = buf₁[i]? := by
      intro i _ hi
      rw [Nat.add_zero,
        List.getElem?_append_left (by simp [List.length_take]; omega),
        List.getElem?_take, if_pos hi]
    have h := h1E (buf₁.take n₁ ++ buf₂.take n₂) 0 (by rw [hlg]; omega) hag
    simpa only [Nat.add_zero, Nat.zero_add] using h
  · have hag : ∀ i, 0 ≤ i → i < n₂ →
        (buf₁.take n₁ ++ buf₂.take n₂)[i + n₁]? = buf₂[i]? := by
      intro i _ hi
      have hlt : (buf₁.take n₁).length ≤ i + n₁ := by
        rw [List.length_take]
        omega
      rw [List.getElem?_append_right hlt]
      have hsub : i + n₁ - (buf₁.take n₁).length = i := by
        rw [List.length_take]
        omega
      rw [hsub, List.getElem?_take, if_pos hi]
    have h := h2E (buf₁.take n₁ ++ buf₂.take n₂) n₁ (by rw [hlg]; omega) hag
    rw [Nat.zero_add, Nat.add_comm n₂ n₁] at h
    exact h

/-- C10 witness: the one-byte-field message `{a: 5}` under packet id 1 (two
encoded bytes) and the string message `{s: "h"}` under packet id 2 (four
encoded bytes) decode back-to-back from the six-byte concatenation of their
committed encodings, the second read starting at offset 2 and ending at 6. -/
theorem C10_offset_advance_witness :
    read (.mk 1 [("a", .prim .u8)]) [1, 5, 2, 0, 1, 104] 0 6 =
      .ok (.vObj [("a", .vNum 5)], 2) ∧
    read (.mk 2 [("s", .strF)]) [1, 5, 2, 0, 1, 104] 2 6 =
      .ok (.vObj [("s", .vStr [104])], 6) := by
  have hw₁ : writeDataView (.mk 1 [("a", .prim .u8)]) (.vObj [("a", .vNum 5)]) =
      .ok ([1, 5], 2) := by
    simp [writeDataView, write, writeEntries, writeDef, precalculateBufferLengthWithStrings,
      precalcExtra, precalcDef, Packet.minimumByteLength, minLenEntries, minLenDef,
      setPrim, writeBytesAt, viewSet, toBE, byteSize, asObj, asInt, getField,
      List.replicate]
  have hw₂ : writeDataView (.mk 2 [("s", .strF)]) (.vObj [("s", .vStr [104])]) =
      .ok ([2, 0, 1, 104], 4) := by
    simp [writeDataView, write, writeEntries, writeDef, precalculateBufferLengthWithStrings,
      precalcExtra, precalcDef, Packet.minimumByteLength, minLenEntries, minLenDef,
      setPrim, writeBytesAt, viewSet, toBE, byteSize, asObj, asStr, getField,
      encodeStringIntoDataView, List.replicate]
  have h := C10_offset_advance_back_to_back (.mk 1 [("a", .prim .u8)])
    (.mk 2 [("s", .strF)]) (.vObj [("a", .vNum 5)]) (.vObj [("s", .vStr [104])])
    [1, 5] [2, 0, 1, 104] 2 4
    (by simp [wfPacket, wfEntries, wfDef])
    (by simp [conformsPacket, conformsEntries, conformsDef, primRangeOk])
    (by simp [wfPacket, wfEntries, wfDef])
    (by simp [conformsPacket, conformsEntries, conformsDef])
    hw₁ hw₂
  obtain ⟨-, h2, h3⟩ := h
  constructor
  · simpa using h2
  · simpa using h3

end Claims

end BinaryPacket
